import Mathlib

/-!
Verification of the reverse-mode autograd core (engine.cpp, variable.cpp,
accumulate_grad.cpp, function.h) against its specification.

The C++ code is shallowly embedded: tensors are modelled as an opaque integer
payload together with an object identity (a natural number), so that shallow
clones (fresh object, equal payload) are expressible; shared pointers become
identities (`Nat`) or `Option Nat` where null matters; weak pointers become
`Option Nat` with `none` standing for an expired or empty reference; C++
exceptions become `Except` values; and the multi-threaded scheduler becomes a
step function driven by an arbitrary list of scheduler picks, so that theorems
quantify over every interleaving.
-/

set_option maxHeartbeats 1000000
set_option linter.unnecessarySeqFocus false

namespace Autograd

/-- A tensor: `id` is the object identity (the address of the THPP tensor),
`val` the opaque payload, `isSparse` the sparse/dense predicate. -/
structure Tensor where
  id : Nat
  val : Int
  isSparse : Bool
  deriving DecidableEq, Repr

/-! ### ReadyQueue (engine.cpp lines 44-93)

The C++ `ReadyQueue` holds a `std::deque<FunctionTask>`; `push_front` inserts
at the front of the deque and increments the owning GraphTask's
`outstanding_tasks`; `pop_back` removes from the back.  The head of the Lean
list is the front of the deque. -/

structure ReadyQueue (α : Type) where
  queue : List α
  outstanding_tasks : Nat
  deriving DecidableEq

def ReadyQueue.empty {α : Type} : ReadyQueue α :=
  { queue := [], outstanding_tasks := 0 }

/-- `ReadyQueue::push_front`: insert at the front of the deque, incrementing
the outstanding-task counter. -/
def ReadyQueue.push_front {α : Type} (q : ReadyQueue α) (item : α) : ReadyQueue α :=
  { queue := item :: q.queue, outstanding_tasks := q.outstanding_tasks + 1 }

/-- `ReadyQueue::pop_back`: remove from the back of the deque.  The C++ call
blocks until the deque is non-empty; on an empty queue the model returns
`none`. -/
def ReadyQueue.pop_back {α : Type} (q : ReadyQueue α) : Option (α × ReadyQueue α) :=
  match q.queue.getLast? with
  | none => none
  | some x => some (x, { q with queue := q.queue.dropLast })

/-- A sequence of producer calls with no interleaved pops. -/
def ReadyQueue.pushAll {α : Type} (q : ReadyQueue α) (xs : List α) : ReadyQueue α :=
  xs.foldl ReadyQueue.push_front q

theorem ReadyQueue.pushAll_queue {α : Type} (q : ReadyQueue α) (xs : List α) :
    (q.pushAll xs).queue = xs.reverse ++ q.queue := by
  induction xs generalizing q with
  | nil => simp [ReadyQueue.pushAll]
  | cons x xs ih =>
    simp [ReadyQueue.pushAll, List.foldl_cons] at *
    rw [ih]
    simp [ReadyQueue.push_front]

/-! ### SavedVariable (part_000, `SavedVariable::unpack`, lines 88-118) -/

/-- The fields of a `SavedVariable` snapshot.  `data = none` models a null
saved-data pointer; `current_version` is the value `**version` read at unpack
time; `version_cell` is the identity of the shared `VariableVersion` block;
`weak_grad_fn`/`grad_accumulator` are weak references (`none` = expired or
never set); `grad_fn` is the strong reference. -/
structure SavedVariable where
  data : Option Tensor
  expected_version : Nat
  current_version : Nat
  version_cell : Nat
  requires_grad : Bool
  is_volatile : Bool
  grad_fn : Option Nat
  weak_grad_fn : Option Nat
  grad_accumulator : Option Nat
  deriving DecidableEq, Repr

/-- The Variable produced by `SavedVariable::unpack`.  Its `version_cell` is
the block its counter aliases after `join_with`; `join_with` itself is
modelled (the spec describes it as making the two counters alias, so the new
variable adopts the saved cell). -/
structure UnpackedVariable where
  data : Tensor
  requires_grad : Bool
  is_volatile : Bool
  grad_fn : Option Nat
  version_cell : Nat
  grad_accumulator : Option Nat
  deriving DecidableEq, Repr

inductive UnpackError where
  | inplaceModified
  | noGradAccumulator
  deriving DecidableEq, Repr

/-- `SavedVariable::unpack`.  `freshId` is the unused object identity that
`clone_shallow` assigns to the fresh tensor.  Mirrors the source order:
null-data early return, version check, construction of the new Variable with
a shallow clone, grad_fn restoration (live weak reference preferred when no
strong one was saved), `join_with` on the version counter, and the
missing-accumulator logic error for a saved leaf that requires grad. -/
def SavedVariable.unpack (sv : SavedVariable) (freshId : Nat) :
    Except UnpackError (Option UnpackedVariable) :=
  match sv.data with
  | none => .ok none
  | some d =>
    if sv.expected_version ≠ sv.current_version then
      .error .inplaceModified
    else
      let new_grad_fn : Option Nat :=
        if sv.grad_fn = none ∧ sv.weak_grad_fn ≠ none then sv.weak_grad_fn
        else sv.grad_fn
      if sv.requires_grad ∧ sv.grad_fn = none ∧ sv.weak_grad_fn = none ∧
          sv.grad_accumulator = none then
        .error .noGradAccumulator
      else
        .ok (some { data := { id := freshId, val := d.val, isSparse := d.isSparse },
                    requires_grad := sv.requires_grad,
                    is_volatile := sv.is_volatile,
                    grad_fn := new_grad_fn,
                    version_cell := sv.version_cell,
                    grad_accumulator := sv.grad_accumulator })

/-! ### Variable construction (part_000, lines 29-62) -/

/-- The slice of a `Function` node that Variable construction reads and
writes (function.h): its current `num_inputs` and `is_executable`. -/
structure FunctionObj where
  num_inputs : Nat
  is_executable : Bool
  deriving DecidableEq, Repr

/-- A constructed Variable.  `data` is non-optional: both constructors reject
a null tensor, so a live Variable always holds a tensor. -/
structure Variable where
  data : Tensor
  grad_fn : Option Nat
  requires_grad : Bool
  is_volatile : Bool
  output_nr : Nat
  deriving DecidableEq, Repr

inductive CtorError where
  | nullData
  deriving DecidableEq, Repr

/-- `Variable::Variable(data, requires_grad, is_volatile)` — the leaf
constructor: no grad_fn, `output_nr = 0`, fresh version counter; throws when
the supplied tensor pointer is null. -/
def Variable.mkLeaf (data : Option Tensor) (requires_grad is_volatile : Bool) :
    Except CtorError Variable :=
  match data with
  | none => .error .nullData
  | some d =>
      .ok { data := d, grad_fn := none, requires_grad := requires_grad,
            is_volatile := is_volatile, output_nr := 0 }

/-- `Variable::Variable(data, grad_fn)` — the op-output constructor:
`requires_grad = grad_fn->is_executable`, `is_volatile = false`,
`output_nr = grad_fn->num_inputs++` (the post-increment: the Variable takes
the pre-increment value and the Function's counter grows by one).  The
increment sits in the member-initializer list, so the updated Function state
is returned even when the null-data check then throws.  `gfId` is the
identity of the grad_fn node. -/
def Variable.mkFromGradFn (data : Option Tensor) (gfId : Nat) (gf : FunctionObj) :
    Except CtorError Variable × FunctionObj :=
  let gfAfter : FunctionObj := { gf with num_inputs := gf.num_inputs + 1 }
  match data with
  | none => (.error .nullData, gfAfter)
  | some d =>
      (.ok { data := d, grad_fn := some gfId, requires_grad := gf.is_executable,
             is_volatile := false, output_nr := gf.num_inputs }, gfAfter)

/-- Flag slice of an input Variable, as read by `Function::flags`. -/
structure VarFlags where
  requires_grad : Bool
  is_volatile : Bool
  deriving DecidableEq, Repr

/-- Executability and volatility computed for a new op from its inputs. -/
structure FunctionFlags where
  is_executable : Bool
  is_volatile : Bool
  deriving DecidableEq, Repr

/-- Modelled from the spec: `Function::flags` (declared in function.h; its
definition, function.cpp, is not among the sources).  Per the spec, any
volatile input makes the op volatile and non-executable; otherwise the op is
executable iff some input requires grad, and is not volatile. -/
def Function.flags (inputs : List VarFlags) : FunctionFlags :=
  if inputs.any (fun v => v.is_volatile) then
    { is_executable := false, is_volatile := true }
  else
    { is_executable := inputs.any (fun v => v.requires_grad), is_volatile := false }

/-! ### Variable::get_grad_accumulator (part_000, lines 64-86) -/

/-- The slice of a Variable read by `get_grad_accumulator`: its grad_fn, its
requires_grad flag, and the weakly cached accumulator (`none` = empty weak
pointer or expired). -/
structure VarAccState where
  grad_fn : Option Nat
  requires_grad : Bool
  grad_accumulator : Option Nat
  deriving DecidableEq, Repr

/-- `Variable::get_grad_accumulator`.  Returns null when a grad_fn is set
(this check precedes the requires_grad check), null when grad is not
required, otherwise the cached accumulator, lazily allocating (and caching) a
fresh `AccumulateGrad` — with identity `freshAcc` — when the weak cache is
empty.  The double-checked lock collapses in this sequential model. -/
def Variable.get_grad_accumulator (v : VarAccState) (freshAcc : Nat) :
    Option Nat × VarAccState :=
  if v.grad_fn ≠ none then (none, v)
  else if ¬ v.requires_grad then (none, v)
  else
    match v.grad_accumulator with
    | some a => (some a, v)
    | none => (some freshAcc, { v with grad_accumulator := some freshAcc })

/-! ### AccumulateGrad (accumulate_grad.cpp) -/

/-- A gradient Variable as AccumulateGrad sees one: tensor data, volatility,
and the producing node (`none` for a leaf/detached gradient). -/
structure GVar where
  data : Tensor
  is_volatile : Bool
  grad_fn : Option Nat
  deriving DecidableEq, Repr

/-- The state of the leaf Variable an AccumulateGrad is bound to. -/
structure LeafVarState where
  grad_fn : Option Nat
  requires_grad : Bool
  version_value : Nat
  grad : Option GVar
  grad_accumulator : Option Nat
  hooks : List (GVar → GVar)

/-- `AccumulateGrad::acc_inplace`: if the existing grad is sparse and the new
one dense, allocate a fresh dense tensor (identity `freshT`) holding
`new + grad` and repoint the grad at it; otherwise `cadd` the new data into
the existing tensor in place (same object identity). -/
def AccumulateGrad.acc_inplace (grad new_grad : GVar) (freshT : Nat) : GVar :=
  if grad.data.isSparse ∧ ¬ new_grad.data.isSparse then
    { grad with data := { id := freshT, val := new_grad.data.val + grad.data.val,
                          isSparse := new_grad.data.isSparse } }
  else
    { grad with data := { grad.data with val := grad.data.val + new_grad.data.val } }

/-- Modelled from the spec: `Clone::apply` (functions/tensor.cpp is not among
the sources) — returns a Variable holding a clone of the input tensor (fresh
object identity `freshT`, equal payload), wired to the fresh Clone node
`nodeId` when the input is not volatile, per the flag-propagation rules. -/
def Clone.apply (g : GVar) (nodeId freshT : Nat) : GVar :=
  { data := { id := freshT, val := g.data.val, isSparse := g.data.isSparse },
    is_volatile := g.is_volatile,
    grad_fn := if g.is_volatile then none else some nodeId }

/-- Modelled from the spec: `Add::apply` (functions/basic_ops is not among the
sources) — returns a Variable holding the element-wise sum in a fresh tensor,
wired to the fresh Add node `nodeId` when neither input is volatile. -/
def Add.apply (a b : GVar) (nodeId freshT : Nat) : GVar :=
  { data := { id := freshT, val := a.data.val + b.data.val,
              isSparse := a.data.isSparse && b.data.isSparse },
    is_volatile := a.is_volatile || b.is_volatile,
    grad_fn := if a.is_volatile || b.is_volatile then none else some nodeId }

inductive AccError where
  | badGradCount
  | leafMovedIntoGraph
  | leafModifiedInplace
  | accumulatorRebound
  deriving DecidableEq, Repr

/-- `AccumulateGrad::apply`.  `selfId` is this node's identity; `var` is the
result of locking the weak `variable` pointer; `variableGrad` the result of
locking `variable_grad`; `fresh` is the base for tensor identities allocated
inside the call (`fresh` and `fresh + 1` may be used); `freshAcc`,
`cloneNode` and `addNode` are the identities `get_grad_accumulator`, `Clone`
and `Add` would allocate.  The value returned is the updated pair
(variable state, variable_grad reference); the C++ function returns an empty
variable list. -/
def AccumulateGrad.apply (selfId : Nat) (var : Option LeafVarState)
    (variableGrad : Option GVar) (grads : List GVar)
    (freshAcc fresh cloneNode addNode : Nat) :
    Except AccError (Option LeafVarState × Option GVar) :=
  if grads.length ≠ 1 then .error .badGradCount
  else
    match grads.head? with
    | none => .error .badGradCount
    | some new_grad =>
      match var with
      | none =>
        match variableGrad with
        | none => .ok (none, none)
        | some vg =>
          if ¬ vg.is_volatile ∨ ¬ new_grad.is_volatile then .ok (none, some vg)
          else .ok (none, some (AccumulateGrad.acc_inplace vg new_grad fresh))
      | some v =>
        if v.grad_fn ≠ none then .error .leafMovedIntoGraph
        else if v.version_value ≠ 0 then .error .leafModifiedInplace
        else if (Variable.get_grad_accumulator
            { grad_fn := v.grad_fn, requires_grad := v.requires_grad,
              grad_accumulator := v.grad_accumulator } freshAcc).1 ≠ some selfId then
          .error .accumulatorRebound
        else
          let g := v.hooks.foldl (fun acc h => h acc) new_grad
          match v.grad with
          | none =>
            let ng := Clone.apply g cloneNode fresh
            .ok (some { v with grad := some ng }, some ng)
          | some og =>
            if og.is_volatile then
              let og' := AccumulateGrad.acc_inplace og g fresh
              .ok (some { v with grad := some og' }, variableGrad)
            else
              let g' := if ¬ og.is_volatile ∧ g.is_volatile then
                  { data := { id := fresh, val := g.data.val,
                              isSparse := g.data.isSparse },
                    is_volatile := false, grad_fn := none }
                else g
              let sum := Add.apply og g' addNode (fresh + 1)
              .ok (some { v with grad := some sum }, variableGrad)

/-! ### The control skeleton of Engine::evaluate_function (engine.cpp 155-168)

`evaluate_function` first runs `call_function` (pre-hooks, the optional
callback short-circuit, `fn.apply`, post-hooks), then — when the GraphTask was
created with `keep_graph = false` — calls `fn.releaseVariables()`, and only
then compares the number of outputs with `fn.next_functions.size()`, throwing
on mismatch; on success it proceeds to distribute the outputs.  The trace
records these steps in source order (steps after a thrown mismatch do not
appear). -/

inductive EvalEvent where
  | callFunction
  | releaseVariables
  | outputCountCheck
  | distributeOutputs
  deriving DecidableEq, Repr

inductive EvalError where
  | invalidOutputCount
  deriving DecidableEq, Repr

/-- The event trace and outcome of one `Engine::evaluate_function` call, as a
function of the `keep_graph` flag, the number of outputs `apply` returned,
and `fn.next_functions.size()`. -/
def evaluateFunctionTrace (keep_graph : Bool) (numOutputs numNext : Nat) :
    List EvalEvent × Option EvalError :=
  let t0 := [EvalEvent.callFunction]
  let t1 := if keep_graph then t0 else t0 ++ [EvalEvent.releaseVariables]
  if numOutputs ≠ numNext then
    (t1 ++ [EvalEvent.outputCountCheck], some .invalidOutputCount)
  else
    (t1 ++ [EvalEvent.outputCountCheck, EvalEvent.distributeOutputs], none)

/-! ### The function graph and the backward scheduler (engine.cpp)

A graph is a list of function nodes; a `Function*` is the node's index.  The
`fnode` lookup is total: an out-of-range index yields a default node with no
edges that is neither executable nor stochastic, so theorems about real
configurations (where every edge target is a valid pointer, hence an
in-range index) are unaffected. -/

/-- The fields of `struct Function` (function.h) that the engine reads.  An
edge `(some t, k)` points at node `t`, input slot `k`; `(none, k)` is a null
edge. -/
structure FNode where
  next_functions : List (Option Nat × Nat)
  is_executable : Bool
  is_stochastic : Bool
  num_inputs : Nat
  deriving DecidableEq, Repr

instance : Inhabited FNode :=
  ⟨{ next_functions := [], is_executable := false, is_stochastic := false, num_inputs := 0 }⟩

abbrev Graph := List FNode

def fnode (g : Graph) (i : Nat) : FNode := g.getD i default

/-- Number of edges in the list `edges` that point at `t`. -/
def edgeCountIn (edges : List (Option Nat × Nat)) (t : Nat) : Nat :=
  (edges.filter (fun e => e.1 = some t)).length

/-- Number of `next_functions` edges of node `s` that point at node `t`. -/
def edgeCount (g : Graph) (s t : Nat) : Nat :=
  edgeCountIn (fnode g s).next_functions t

/-- Number of in-range node indices not yet seen; bounds the remaining work
of the traversal worklists. -/
def unseenCount (g : Graph) (seen : List Nat) : Nat :=
  ((Finset.range g.length).filter (fun i => i ∉ seen)).card

/-- Sum over the executable members of `l` of the number of their edges into
`t`. -/
def execEdgeSum (g : Graph) (l : List Nat) (t : Nat) : Nat :=
  ((l.filter (fun s => (fnode g s).is_executable)).map (fun s => edgeCount g s t)).sum

/-! `Engine::compute_dependencies` (engine.cpp 248-271).  The C++
`function_queue` is a vector popped and pushed at the back; the Lean list
mirrors it reversed, so both operations act on the list head.  The
`dependencies` unordered_map is modelled as a total count `Nat → Nat`: an
entry is created at 1 by `operator[] += 1` and erased exactly when its count
returns to 0 in `evaluate_function`, so a present entry is a positive count
and an absent entry is 0. -/

/-- The inner edge loop of `compute_dependencies`: skip null, non-executable
and stochastic targets; count the edge; push first-seen targets. -/
def depsEdges (g : Graph) :
    List (Option Nat × Nat) → List Nat → List Nat → (Nat → Nat) →
      List Nat × List Nat × (Nat → Nat)
  | [], queue, seen, deps => (queue, seen, deps)
  | (none, _) :: rest, queue, seen, deps => depsEdges g rest queue seen deps
  | (some t, _) :: rest, queue, seen, deps =>
    if (fnode g t).is_executable = false then depsEdges g rest queue seen deps
    else if (fnode g t).is_stochastic then depsEdges g rest queue seen deps
    else
      let deps' : Nat → Nat := fun x => if x = t then deps x + 1 else deps x
      if t ∈ seen then depsEdges g rest queue seen deps'
      else depsEdges g rest (t :: queue) (t :: seen) deps'

/-- The worklist of `compute_dependencies`; the fuel only bounds the number
of iterations (the loop runs the queue dry), and is chosen large enough that
it is never exhausted. -/
def depsLoop (g : Graph) :
    Nat → List Nat → List Nat → (Nat → Nat) → Option ((Nat → Nat) × List Nat)
  | _, [], _seen, deps => some (deps, _seen)
  | 0, _ :: _, _, _ => none
  | fuel + 1, f :: queue, seen, deps =>
    if (fnode g f).is_executable = false then depsLoop g fuel queue seen deps
    else
      match depsEdges g (fnode g f).next_functions queue seen deps with
      | (queue', seen', deps') => depsLoop g fuel queue' seen' deps'

/-- `Engine::compute_dependencies`: seed `seen` with the frontier queue and
run the worklist.  Returns the dependency counts and the final `seen` set. -/
def compute_dependencies (g : Graph) (frontier : List Nat) :
    Option ((Nat → Nat) × List Nat) :=
  depsLoop g (frontier.length + 2 * g.length) frontier.reverse frontier (fun _ => 0)

/-- All node indices occurring as a (non-null) edge target anywhere in `g`. -/
def allTargets (g : Graph) : List Nat :=
  (g.map (fun n => n.next_functions.filterMap (fun e => e.1))).flatten

/-! `Engine::find_stochastic_functions` (engine.cpp 225-245): reverse search
from the roots through every non-null edge; each executable stochastic
first-seen target is recorded (in the source it is pushed onto the CPU ready
queue and appended to the frontier).  `seen` starts empty — the roots
themselves are not pre-seeded. -/

/-- The inner edge loop of `find_stochastic_functions`. -/
def stochEdges (g : Graph) :
    List (Option Nat × Nat) → List Nat → List Nat → List Nat →
      List Nat × List Nat × List Nat
  | [], sq, seen, found => (sq, seen, found)
  | (none, _) :: rest, sq, seen, found => stochEdges g rest sq seen found
  | (some t, _) :: rest, sq, seen, found =>
    let found' := if (fnode g t).is_stochastic ∧ (fnode g t).is_executable ∧ ¬ t ∈ seen
      then found ++ [t] else found
    if t ∈ seen then stochEdges g rest sq seen found'
    else stochEdges g rest (t :: sq) (t :: seen) found'

/-- The worklist of `find_stochastic_functions`. -/
def stochLoop (g : Graph) :
    Nat → List Nat → List Nat → List Nat → Option (List Nat × List Nat)
  | _, [], _seen, found => some (found, _seen)
  | 0, _ :: _, _, _ => none
  | fuel + 1, f :: sq, seen, found =>
    match stochEdges g (fnode g f).next_functions sq seen found with
    | (sq', seen', found') => stochLoop g fuel sq' seen' found'

/-- `Engine::find_stochastic_functions`: returns the discovered stochastic
functions (in discovery order) and the set of visited targets. -/
def find_stochastic_functions (g : Graph) (roots : List Nat) :
    Option (List Nat × List Nat) :=
  stochLoop g (roots.length + (allTargets g).dedup.length) roots.reverse [] []

/-! The execution phase.  Workers pop `FunctionTask`s from their device's
ready queue, run `evaluate_function`, and push newly ready functions.  The
model keeps one pool `pending` of enqueued tasks (function indices) and lets
an arbitrary scheduler pick any of them at each step — a superset of the
behaviours of the per-device FIFO queues, so properties proved for every
pick sequence hold for every real interleaving.  The per-edge work of
`evaluate_function` (dependency decrement, buffer fill, readiness push) is
serialised by the GraphTask mutex in the source; decrements commute, so
treating one task's edge loop as a single step loses no behaviours relevant
to firing counts.  `fired` records each `fn.apply` invocation; `error`
models the captured `has_error` flag (after a failure, drained tasks are
popped without being evaluated). -/

structure EngineState where
  pending : List Nat
  deps : Nat → Nat
  fired : List Nat
  error : Bool

/-- The output-distribution loop of `Engine::evaluate_function` (engine.cpp
171-221): skip null edges and stochastic or non-executable targets; for the
rest, look up the dependency entry — a missing entry (count 0) throws the
"dependency not found" error, which unwinds the loop and poisons the
GraphTask — otherwise decrement, and enqueue the target exactly when its
count reaches zero (the entry is erased, i.e. returns to 0). -/
def execEdges (g : Graph) :
    List (Option Nat × Nat) → List Nat → (Nat → Nat) →
      List Nat × (Nat → Nat) × Bool
  | [], pending, deps => (pending, deps, false)
  | (none, _) :: rest, pending, deps => execEdges g rest pending deps
  | (some t, _) :: rest, pending, deps =>
    if (fnode g t).is_stochastic ∨ (fnode g t).is_executable = false then
      execEdges g rest pending deps
    else
      match deps t with
      | 0 => (pending, deps, true)
      | n + 1 =>
        let deps' : Nat → Nat := fun x => if x = t then n else deps x
        if n = 0 then execEdges g rest (t :: pending) deps'
        else execEdges g rest pending deps'

/-- One worker iteration (`Engine::thread_main` + `evaluate_function`): pop
the task the scheduler picked; if the GraphTask has failed, drain it without
evaluating; otherwise invoke `apply` (recorded in `fired`) and distribute
the outputs. -/
def engineStep (g : Graph) (st : EngineState) (pick : Nat) : EngineState :=
  match st.pending with
  | [] => st
  | _ :: _ =>
    let i := pick % st.pending.length
    let f := st.pending.getD i 0
    let pending' := st.pending.eraseIdx i
    if st.error then { st with pending := pending' }
    else
      match execEdges g (fnode g f).next_functions pending' st.deps with
      | (p', deps', err') =>
        { pending := p', deps := deps', fired := st.fired ++ [f], error := err' }

/-- A run of the engine under the scheduler choices `picks`. -/
def engineRun (g : Graph) (st : EngineState) (picks : List Nat) : EngineState :=
  picks.foldl (engineStep g) st

/-- The set-up phase of `Engine::execute`: `find_roots` builds one task per
distinct executable root (`roots` is the deduplicated root list),
`find_stochastic_functions` enqueues the discovered stochastic functions and
appends them to the frontier, and `compute_dependencies` counts arrivals
from the combined frontier.  (When nothing was enqueued the source throws
before any task can run; the model's run from an empty `pending` likewise
fires nothing.) -/
def executeInit (g : Graph) (roots : List Nat) : Option EngineState := do
  let (found, _) ← find_stochastic_functions g roots
  let (deps, _) ← compute_dependencies g (roots ++ found)
  pure { pending := roots.filter (fun r => (fnode g r).is_executable) ++ found,
         deps := deps, fired := [], error := false }

/-- Nodes the stochastic search visits: everything occurring as a non-null
edge target on some path from a root (through nodes of any kind). -/
inductive SuccReach (g : Graph) (roots : List Nat) : Nat → Prop where
  | base (r t k : Nat) : r ∈ roots → (some t, k) ∈ (fnode g r).next_functions →
      SuccReach g roots t
  | step (s t k : Nat) : SuccReach g roots s →
      (some t, k) ∈ (fnode g s).next_functions → SuccReach g roots t

/-- Nodes the dependency traversal processes: the frontier, plus every
executable non-stochastic node reachable from it along edges out of
executable nodes. -/
inductive DepReach (g : Graph) (frontier : List Nat) : Nat → Prop where
  | base (f : Nat) : f ∈ frontier → DepReach g frontier f
  | step (s t k : Nat) : DepReach g frontier s → (fnode g s).is_executable = true →
      (some t, k) ∈ (fnode g s).next_functions →
      (fnode g t).is_executable = true → (fnode g t).is_stochastic = false →
      DepReach g frontier t

/-- The functions one execute fires, per the amended claim C1: executable
roots, discovered stochastic functions, and the executable non-stochastic
non-frontier functions the dependency traversal reaches from the combined
frontier. -/
def FiresSpec (g : Graph) (roots found : List Nat) (f : Nat) : Prop :=
  (f ∈ roots ∧ (fnode g f).is_executable = true) ∨ f ∈ found ∨
    (f ∉ roots ++ found ∧ DepReach g (roots ++ found) f)

/-- Number of distinct edge targets of `g` not yet seen; bounds the work of
the stochastic search. -/
def unseenTCount (g : Graph) (seen : List Nat) : Nat :=
  ((allTargets g).toFinset.filter (fun i => i ∉ seen)).card

/-- Sum over all members of `l` of the number of their edges into `t`. -/
def listEdgeSum (g : Graph) (l : List Nat) (t : Nat) : Nat :=
  (l.map (fun s => edgeCount g s t)).sum

/-- The execution invariant of one backward pass: the error flag is clear;
no function occurs twice among the fired trace and the pending tasks; every
fired or pending function is one the execute is meant to fire; each
executable root and each discovered stochastic function occurs exactly once
in trace-plus-queue; and every interior node `f` of the dependency closure
`R` (enumerating `DepReach` over the frontier `roots ++ found`, with initial
counts `deps0`) satisfies the counter law: the decrements applied so far are
the edges from already-fired nodes; while some count remains the entry holds
the difference and `f` is neither fired nor pending; once the count is
exhausted the entry is gone and `f` occurs exactly once in
trace-plus-queue. -/
def EngineInv (g : Graph) (roots found R : List Nat) (deps0 : Nat → Nat)
    (st : EngineState) : Prop :=
  st.error = false ∧
  (st.fired ++ st.pending).Nodup ∧
  (∀ f ∈ st.fired ++ st.pending, FiresSpec g roots found f) ∧
  (∀ f, ((f ∈ roots ∧ (fnode g f).is_executable = true) ∨ f ∈ found) →
    (st.fired ++ st.pending).count f = 1) ∧
  (∀ f, f ∉ roots ++ found → f ∈ R →
    listEdgeSum g st.fired f ≤ deps0 f ∧
    (listEdgeSum g st.fired f < deps0 f →
      st.deps f = deps0 f - listEdgeSum g st.fired f ∧
      f ∉ st.fired ∧ f ∉ st.pending) ∧
    (listEdgeSum g st.fired f = deps0 f →
      st.deps f = 0 ∧ (st.fired ++ st.pending).count f = 1))

/-- Counterexample graph for claim C1: two executable roots where root 0 has
an edge into root 1, so root 1 is both seeded as a root task and re-enqueued
when its dependency count reaches zero. -/
def rootRefireGraph : Graph :=
  [ { next_functions := [(some 1, 0)], is_executable := true,
      is_stochastic := false, num_inputs := 1 },
    { next_functions := [], is_executable := true,
      is_stochastic := false, num_inputs := 1 } ]

/-- The engine state `executeInit` builds for `rootRefireGraph` with the
single root 0 (used to witness claim C1): one root task, the interior node 1
holding one dependency. -/
def chainInit : EngineState :=
  { pending := [0], deps := fun x => if x = 1 then 0 + 1 else 0,
    fired := [], error := false }

/-- A concrete SavedVariable used to witness claim C2: data present, versions
equal, a strong grad_fn saved. -/
def svSample : SavedVariable :=
  { data := some { id := 5, val := 42, isSparse := false },
    expected_version := 1, current_version := 1, version_cell := 9,
    requires_grad := false, is_volatile := false,
    grad_fn := some 3, weak_grad_fn := none, grad_accumulator := none }

/-! ## Theorems -/

/-! ### Worklist lemmas for compute_dependencies -/

theorem fnode_exec_lt (g : Graph) (t : Nat)
    (h : (fnode g t).is_executable = true) : t < g.length := by
  by_contra hge
  push_neg at hge
  rw [fnode, List.getD_eq_default _ _ hge] at h
  exact absurd h (by decide)

theorem edgeCountIn_cons (e : Option Nat × Nat) (rest : List (Option Nat × Nat))
    (x : Nat) :
    edgeCountIn (e :: rest) x =
      (if e.1 = some x then 1 else 0) + edgeCountIn rest x := by
  simp only [edgeCountIn, List.filter_cons]
  split <;> simp_all <;> omega

theorem edgeCountIn_nil (x : Nat) : edgeCountIn [] x = 0 := rfl

/-- Specification of the inner edge loop of `compute_dependencies`: it
returns the input queue and seen list extended by the same block of fresh
discoveries, counts every edge into an executable non-stochastic target, and
leaves other counts alone. -/
theorem depsEdges_spec (g : Graph) :
    ∀ (edges : List (Option Nat × Nat)) (queue seen : List Nat) (deps : Nat → Nat)
      (queue' seen' : List Nat) (deps' : Nat → Nat),
      depsEdges g edges queue seen deps = (queue', seen', deps') →
      ∃ new : List Nat,
        queue' = new ++ queue ∧ seen' = new ++ seen ∧ new.Nodup ∧
        (∀ t ∈ new, t ∉ seen ∧ (fnode g t).is_executable = true ∧
          (fnode g t).is_stochastic = false ∧ ∃ k, (some t, k) ∈ edges) ∧
        (∀ t k, (some t, k) ∈ edges → (fnode g t).is_executable = true →
          (fnode g t).is_stochastic = false → t ∈ seen') ∧
        (∀ x, (fnode g x).is_executable = true → (fnode g x).is_stochastic = false →
          deps' x = deps x + edgeCountIn edges x) ∧
        (∀ x, ¬ ((fnode g x).is_executable = true ∧ (fnode g x).is_stochastic = false) →
          deps' x = deps x) := by
  intro edges
  induction edges with
  | nil =>
    intro queue seen deps queue' seen' deps' h
    simp only [depsEdges] at h
    cases h
    exact ⟨[], by simp, by simp, by simp, by simp, by simp, fun x _ _ => by
      simp [edgeCountIn_nil], fun x _ => rfl⟩
  | cons e rest ih =>
    intro queue seen deps queue' seen' deps' h
    obtain ⟨o, k0⟩ := e
    cases o with
    | none =>
      simp only [depsEdges] at h
      obtain ⟨new, hq, hs, hnd, hmem, hcov, hsum, hoth⟩ :=
        ih queue seen deps queue' seen' deps' h
      refine ⟨new, hq, hs, hnd, ?_, ?_, ?_, hoth⟩
      · intro t ht
        obtain ⟨h1, h2, h3, kk, h4⟩ := hmem t ht
        exact ⟨h1, h2, h3, kk, List.mem_cons_of_mem _ h4⟩
      · intro t k hmm hex hst
        rcases List.mem_cons.mp hmm with h' | h'
        · exact absurd h' (by simp)
        · exact hcov t k h' hex hst
      · intro x hex hst
        rw [hsum x hex hst, edgeCountIn_cons]
        simp
    | some t =>
      by_cases hex : (fnode g t).is_executable = false
      · simp only [depsEdges, if_pos hex] at h
        obtain ⟨new, hq, hs, hnd, hmem, hcov, hsum, hoth⟩ :=
          ih queue seen deps queue' seen' deps' h
        refine ⟨new, hq, hs, hnd, ?_, ?_, ?_, hoth⟩
        · intro u hu
          obtain ⟨h1, h2, h3, kk, h4⟩ := hmem u hu
          exact ⟨h1, h2, h3, kk, List.mem_cons_of_mem _ h4⟩
        · intro u k hmm huex hust
          rcases List.mem_cons.mp hmm with h' | h'
          · have h1 : u = t ∧ k = k0 := by simpa using h'
            rw [h1.1] at huex
            rw [huex] at hex
            simp at hex
          · exact hcov u k h' huex hust
        · intro x hxex hxst
          rw [hsum x hxex hxst, edgeCountIn_cons]
          have hne : ¬ ((some t : Option Nat) = some x) := by
            intro hc
            cases hc
            rw [hxex] at hex
            simp at hex
          simp [hne]
      · have hex' : (fnode g t).is_executable = true := by
          revert hex
          cases (fnode g t).is_executable <;> simp
        by_cases hst : (fnode g t).is_stochastic = true
        · simp only [depsEdges, if_neg hex, if_pos hst] at h
          obtain ⟨new, hq, hs, hnd, hmem, hcov, hsum, hoth⟩ :=
            ih queue seen deps queue' seen' deps' h
          refine ⟨new, hq, hs, hnd, ?_, ?_, ?_, hoth⟩
          · intro u hu
            obtain ⟨h1, h2, h3, kk, h4⟩ := hmem u hu
            exact ⟨h1, h2, h3, kk, List.mem_cons_of_mem _ h4⟩
          · intro u k hmm huex hust
            rcases List.mem_cons.mp hmm with h' | h'
            · have h1 : u = t ∧ k = k0 := by simpa using h'
              rw [h1.1] at hust
              rw [hust] at hst
              simp at hst
            · exact hcov u k h' huex hust
          · intro x hxex hxst
            rw [hsum x hxex hxst, edgeCountIn_cons]
            have hne : ¬ ((some t : Option Nat) = some x) := by
              intro hc
              cases hc
              rw [hxst] at hst
              simp at hst
            simp [hne]
        · have hst' : (fnode g t).is_stochastic = false := by
            revert hst
            cases (fnode g t).is_stochastic <;> simp
          by_cases hseen : t ∈ seen
          · simp only [depsEdges, if_neg hex, if_neg hst, if_pos hseen] at h
            obtain ⟨new, hq, hs, hnd, hmem, hcov, hsum, hoth⟩ :=
              ih queue seen _ queue' seen' deps' h
            refine ⟨new, hq, hs, hnd, ?_, ?_, ?_, ?_⟩
            · intro u hu
              obtain ⟨h1, h2, h3, kk, h4⟩ := hmem u hu
              exact ⟨h1, h2, h3, kk, List.mem_cons_of_mem _ h4⟩
            · intro u k hmm huex hust
              rcases List.mem_cons.mp hmm with h' | h'
              · have h1 : u = t ∧ k = k0 := by simpa using h'
                rw [h1.1, hs]
                exact List.mem_append_right _ hseen
              · exact hcov u k h' huex hust
            · intro x hxex hxst
              rw [hsum x hxex hxst, edgeCountIn_cons]
              rcases eq_or_ne x t with rfl | hne
              · simp
                omega
              · simp [if_neg hne, Option.some_inj, Ne.symm hne]
            · intro x hx
              rw [hoth x hx]
              have hne : x ≠ t := by
                intro hc
                rw [hc] at hx
                exact hx ⟨hex', hst'⟩
              simp [if_neg hne]
          · simp only [depsEdges, if_neg hex, if_neg hst, if_neg hseen] at h
            obtain ⟨new1, hq, hs, hnd, hmem, hcov, hsum, hoth⟩ :=
              ih (t :: queue) (t :: seen) _ queue' seen' deps' h
            have htn : t ∉ new1 := by
              intro hc
              exact (hmem t hc).1 (List.mem_cons_self t seen)
            refine ⟨new1 ++ [t], ?_, ?_, ?_, ?_, ?_, ?_, ?_⟩
            · rw [hq, List.append_cons]
            · rw [hs, List.append_cons]
            · refine List.Nodup.append hnd (List.nodup_singleton t) ?_
              intro a ha hb
              rcases List.mem_singleton.mp hb with rfl
              exact htn ha
            · intro u hu
              rcases List.mem_append.mp hu with h' | h'
              · obtain ⟨h1, h2, h3, kk, h4⟩ := hmem u h'
                refine ⟨fun hc => h1 (List.mem_cons_of_mem _ hc), h2, h3, kk,
                  List.mem_cons_of_mem _ h4⟩
              · rcases List.mem_singleton.mp h' with rfl
                exact ⟨hseen, hex', hst', k0, List.mem_cons_self _ _⟩
            · intro u k hmm huex hust
              rcases List.mem_cons.mp hmm with h' | h'
              · have h1 : u = t ∧ k = k0 := by simpa using h'
                rw [h1.1, hs]
                exact List.mem_append_right _ (List.mem_cons_self t seen)
              · exact hcov u k h' huex hust
            · intro x hxex hxst
              rw [hsum x hxex hxst, edgeCountIn_cons]
              rcases eq_or_ne x t with rfl | hne
              · simp
                omega
              · simp [if_neg hne, Option.some_inj, Ne.symm hne]
            · intro x hx
              rw [hoth x hx]
              have hne : x ≠ t := by
                intro hc
                rw [hc] at hx
                exact hx ⟨hex', hst'⟩
              simp [if_neg hne]

theorem execEdgeSum_append_exec (g : Graph) (p : List Nat) (f x : Nat)
    (h : (fnode g f).is_executable = true) :
    execEdgeSum g (p ++ [f]) x = execEdgeSum g p x + edgeCount g f x := by
  simp [execEdgeSum, List.filter_append, h, edgeCount]

theorem execEdgeSum_append_nonexec (g : Graph) (p : List Nat) (f x : Nat)
    (h : ¬ ((fnode g f).is_executable = true)) :
    execEdgeSum g (p ++ [f]) x = execEdgeSum g p x := by
  simp [execEdgeSum, List.filter_append, h]

theorem unseenCount_append (g : Graph) (new seen : List Nat)
    (hnd : new.Nodup) (hdisj : ∀ t ∈ new, t ∉ seen)
    (hlt : ∀ t ∈ new, t < g.length) :
    unseenCount g (new ++ seen) + new.length = unseenCount g seen := by
  have hsub : new.toFinset ⊆ (Finset.range g.length).filter (fun i => i ∉ seen) := by
    intro a ha
    rw [List.mem_toFinset] at ha
    rw [Finset.mem_filter, Finset.mem_range]
    exact ⟨hlt a ha, hdisj a ha⟩
  have hset : (Finset.range g.length).filter (fun i => i ∉ new ++ seen)
      = ((Finset.range g.length).filter (fun i => i ∉ seen)) \ new.toFinset := by
    ext a
    simp only [Finset.mem_filter, Finset.mem_sdiff, List.mem_append,
      List.mem_toFinset, Finset.mem_range]
    tauto
  rw [unseenCount, unseenCount, hset, Finset.card_sdiff hsub]
  rw [List.toFinset_card_of_nodup hnd]
  have hle := Finset.card_le_card hsub
  rw [List.toFinset_card_of_nodup hnd] at hle
  omega

/-- Invariant-based specification of the `compute_dependencies` worklist.
`p` is the list of already-popped nodes; the lemma produces the final counts
together with the final processed list `pF`, its characterisation of the
final seen set, its soundness for `DepReach`, its closure property, and the
count formula. -/
theorem depsLoop_spec (g : Graph) (frontier : List Nat) :
    ∀ (fuel : Nat) (queue seen p : List Nat) (deps : Nat → Nat),
      (∀ x, x ∈ seen ↔ x ∈ p ∨ x ∈ queue) →
      (p ++ queue).Nodup →
      (∀ x ∈ seen, DepReach g frontier x) →
      (∀ s ∈ p, (fnode g s).is_executable = true → ∀ t k,
        (some t, k) ∈ (fnode g s).next_functions →
        (fnode g t).is_executable = true → (fnode g t).is_stochastic = false →
        t ∈ seen) →
      (∀ x, (fnode g x).is_executable = true → (fnode g x).is_stochastic = false →
        deps x = execEdgeSum g p x) →
      (∀ x, ¬ ((fnode g x).is_executable = true ∧ (fnode g x).is_stochastic = false) →
        deps x = 0) →
      queue.length + 2 * unseenCount g seen ≤ fuel →
      ∃ depsF seenF pF,
        depsLoop g fuel queue seen deps = some (depsF, seenF) ∧
        (∀ x, x ∈ seenF ↔ x ∈ pF) ∧
        pF.Nodup ∧
        (∀ x ∈ seen, x ∈ seenF) ∧
        (∀ x ∈ seenF, DepReach g frontier x) ∧
        (∀ s ∈ pF, (fnode g s).is_executable = true → ∀ t k,
          (some t, k) ∈ (fnode g s).next_functions →
          (fnode g t).is_executable = true → (fnode g t).is_stochastic = false →
          t ∈ seenF) ∧
        (∀ x, (fnode g x).is_executable = true → (fnode g x).is_stochastic = false →
          depsF x = execEdgeSum g pF x) ∧
        (∀ x, ¬ ((fnode g x).is_executable = true ∧ (fnode g x).is_stochastic = false) →
          depsF x = 0) := by
  intro fuel
  induction fuel with
  | zero =>
    intro queue seen p deps h1 h2 h3 h4 h5 h6 hfuel
    cases queue with
    | nil =>
      refine ⟨deps, seen, p, by simp [depsLoop], ?_, by simpa using h2,
        fun x hx => hx, h3, ?_, h5, h6⟩
      · intro x
        rw [h1 x]
        simp
      · intro s hs hex t k he het hst
        exact h4 s hs hex t k he het hst
    | cons f rest =>
      rw [List.length_cons] at hfuel
      omega
  | succ fuel ih =>
    intro queue seen p deps h1 h2 h3 h4 h5 h6 hfuel
    cases queue with
    | nil =>
      refine ⟨deps, seen, p, by simp [depsLoop], ?_, by simpa using h2,
        fun x hx => hx, h3, ?_, h5, h6⟩
      · intro x
        rw [h1 x]
        simp
      · intro s hs hex t k he het hst
        exact h4 s hs hex t k he het hst
    | cons f rest =>
      have hfseen : f ∈ seen := (h1 f).mpr (Or.inr (List.mem_cons_self f rest))
      by_cases hexf : (fnode g f).is_executable = false
      · have hstep : depsLoop g (fuel + 1) (f :: rest) seen deps
            = depsLoop g fuel rest seen deps := by
          simp only [depsLoop, if_pos hexf]
        rw [hstep]
        refine ih rest seen (p ++ [f]) deps ?_ ?_ h3 ?_ ?_ h6 ?_
        · intro x
          have hx := h1 x
          simp only [List.mem_cons] at hx
          simp only [List.mem_append, List.mem_singleton]
          tauto
        · rwa [List.append_assoc, List.singleton_append]
        · intro s hs hex t k he het hst
          rcases List.mem_append.mp hs with h' | h'
          · exact h4 s h' hex t k he het hst
          · rcases List.mem_singleton.mp h' with rfl
            rw [hex] at hexf
            simp at hexf
        · intro x hx1 hx2
          rw [h5 x hx1 hx2, execEdgeSum_append_nonexec g p f x (by simpa using hexf)]
        · rw [List.length_cons] at hfuel
          omega
      · have hexf' : (fnode g f).is_executable = true := by
          revert hexf
          cases (fnode g f).is_executable <;> simp
        rcases hde : depsEdges g (fnode g f).next_functions rest seen deps
          with ⟨q1, s1, d1⟩
        have hstep : depsLoop g (fuel + 1) (f :: rest) seen deps
            = depsLoop g fuel q1 s1 d1 := by
          simp only [depsLoop, if_neg hexf, hde]
        rw [hstep]
        obtain ⟨new, hq, hs, hndnew, hmem, hcov, hsum, hoth⟩ :=
          depsEdges_spec g _ rest seen deps q1 s1 d1 hde
        subst hq
        subst hs
        have hseenA : ∀ x, x ∈ p ++ [f] → x ∈ seen := by
          intro x hx
          rcases List.mem_append.mp hx with h' | h'
          · exact (h1 x).mpr (Or.inl h')
          · rcases List.mem_singleton.mp h' with rfl
            exact hfseen
        have hrest_seen : ∀ x ∈ rest, x ∈ seen :=
          fun x hx => (h1 x).mpr (Or.inr (List.mem_cons_of_mem f hx))
        have h2' : ((p ++ [f]) ++ rest).Nodup := by
          rwa [List.append_assoc, List.singleton_append]
        obtain ⟨hndA, hndrest, hdisjAR⟩ := List.nodup_append.mp h2'
        have hh1 : ∀ x, x ∈ new ++ seen ↔ x ∈ p ++ [f] ∨ x ∈ new ++ rest := by
          intro x
          have hx := h1 x
          simp only [List.mem_cons] at hx
          simp only [List.mem_append, List.mem_singleton]
          tauto
        have hh2 : ((p ++ [f]) ++ (new ++ rest)).Nodup := by
          rw [List.nodup_append]
          refine ⟨hndA, ?_, ?_⟩
          · rw [List.nodup_append]
            refine ⟨hndnew, hndrest, ?_⟩
            intro a ha hb
            exact (hmem a ha).1 (hrest_seen a hb)
          · intro a ha hb
            rcases List.mem_append.mp hb with h' | h'
            · exact (hmem a h').1 (hseenA a ha)
            · exact hdisjAR ha h'
        have hh3 : ∀ x ∈ new ++ seen, DepReach g frontier x := by
          intro x hx
          rcases List.mem_append.mp hx with h' | h'
          · obtain ⟨hns, hex, hst, k, hedge⟩ := hmem x h'
            exact DepReach.step f x k (h3 f hfseen) hexf' hedge hex hst
          · exact h3 x h'
        have hh4 : ∀ s ∈ p ++ [f], (fnode g s).is_executable = true → ∀ t k,
            (some t, k) ∈ (fnode g s).next_functions →
            (fnode g t).is_executable = true → (fnode g t).is_stochastic = false →
            t ∈ new ++ seen := by
          intro s hs hex t k he het hst
          rcases List.mem_append.mp hs with h' | h'
          · exact List.mem_append_right _ (h4 s h' hex t k he het hst)
          · rcases List.mem_singleton.mp h' with rfl
            exact hcov t k he het hst
        have hh5 : ∀ x, (fnode g x).is_executable = true →
            (fnode g x).is_stochastic = false →
            d1 x = execEdgeSum g (p ++ [f]) x := by
          intro x hx1 hx2
          rw [hsum x hx1 hx2, h5 x hx1 hx2, execEdgeSum_append_exec g p f x hexf']
          rfl
        have hh6 : ∀ x, ¬ ((fnode g x).is_executable = true ∧
            (fnode g x).is_stochastic = false) → d1 x = 0 := by
          intro x hx
          rw [hoth x hx, h6 x hx]
        have hhf : (new ++ rest).length + 2 * unseenCount g (new ++ seen) ≤ fuel := by
          have hlt : ∀ t ∈ new, t < g.length :=
            fun t ht => fnode_exec_lt g t (hmem t ht).2.1
          have hdisj : ∀ t ∈ new, t ∉ seen := fun t ht => (hmem t ht).1
          have hueq := unseenCount_append g new seen hndnew hdisj hlt
          rw [List.length_append]
          rw [List.length_cons] at hfuel
          omega
        obtain ⟨depsF, seenF, pF, hrun, hiff, hndF, hmono, hsoundF, hclosedF,
            hsumF, hothF⟩ :=
          ih (new ++ rest) (new ++ seen) (p ++ [f]) d1 hh1 hh2 hh3 hh4 hh5 hh6 hhf
        exact ⟨depsF, seenF, pF, hrun, hiff, hndF,
          fun x hx => hmono x (List.mem_append_right _ hx), hsoundF, hclosedF,
          hsumF, hothF⟩

/-- Full specification of `compute_dependencies` for a duplicate-free
frontier: the worklist terminates, the set it visits is exactly the
`DepReach` closure (`reach` enumerates it without duplicates and is closed
under counted edges), the count of every executable non-stochastic node
equals the number of edges into it from executable visited nodes, and every
other node keeps count 0 — i.e. receives no map entry. -/
theorem compute_dependencies_spec (g : Graph) (frontier : List Nat)
    (hnd : frontier.Nodup) :
    ∃ depsF seenF reach,
      compute_dependencies g frontier = some (depsF, seenF) ∧
      (∀ x, x ∈ seenF ↔ x ∈ reach) ∧
      reach.Nodup ∧
      (∀ x, x ∈ reach ↔ DepReach g frontier x) ∧
      (∀ s ∈ reach, (fnode g s).is_executable = true → ∀ t k,
        (some t, k) ∈ (fnode g s).next_functions →
        (fnode g t).is_executable = true → (fnode g t).is_stochastic = false →
        t ∈ reach) ∧
      (∀ x, (fnode g x).is_executable = true → (fnode g x).is_stochastic = false →
        depsF x = execEdgeSum g reach x) ∧
      (∀ x, ¬ ((fnode g x).is_executable = true ∧ (fnode g x).is_stochastic = false) →
        depsF x = 0) := by
  obtain ⟨depsF, seenF, pF, hrun, hiff, hndF, hmono, hsound, hclosed, hsums, hoth⟩ :=
    depsLoop_spec g frontier (frontier.length + 2 * g.length)
      frontier.reverse frontier [] (fun _ => 0)
      (by intro x; simp)
      (by simpa using hnd)
      (fun x hx => DepReach.base x hx)
      (by intro s hs; simp at hs)
      (by intro x _ _; simp [execEdgeSum])
      (fun x _ => rfl)
      (by
        rw [List.length_reverse]
        have : unseenCount g frontier ≤ g.length := by
          calc unseenCount g frontier
              ≤ (Finset.range g.length).card := Finset.card_filter_le _ _
            _ = g.length := Finset.card_range _
        omega)
  have hinpf : ∀ x, x ∈ pF ↔ DepReach g frontier x := by
    intro x
    constructor
    · intro hx
      exact hsound x ((hiff x).mpr hx)
    · intro hr
      induction hr with
      | base f hf => exact (hiff f).mp (hmono f hf)
      | step s t k _hs hex hedge het hst ihs =>
        exact (hiff t).mp (hclosed s ihs hex t k hedge het hst)
  refine ⟨depsF, seenF, pF, hrun, hiff, hndF, hinpf, ?_, hsums, hoth⟩
  intro s hs hex t k hedge het hst
  exact (hiff t).mp (hclosed s hs hex t k hedge het hst)

/-! ### Lemmas about the execution phase -/

theorem edgeCountIn_pos (edges : List (Option Nat × Nat)) (t : Nat) :
    0 < edgeCountIn edges t ↔ ∃ k, (some t, k) ∈ edges := by
  constructor
  · intro h
    rw [edgeCountIn, List.length_pos_iff_exists_mem] at h
    obtain ⟨e, he⟩ := h
    rw [List.mem_filter] at he
    obtain ⟨e1, e2⟩ := e
    have : e1 = some t := by simpa using he.2
    subst this
    exact ⟨e2, he.1⟩
  · intro h
    obtain ⟨k, hk⟩ := h
    rw [edgeCountIn, List.length_pos_iff_exists_mem]
    exact ⟨(some t, k), List.mem_filter.mpr ⟨hk, by simp⟩⟩

theorem depReach_flags (g : Graph) (fr : List Nat) (t : Nat)
    (h : DepReach g fr t) (hn : t ∉ fr) :
    (fnode g t).is_executable = true ∧ (fnode g t).is_stochastic = false := by
  cases h with
  | base f hf => exact absurd hf hn
  | step s t k _hs _hex _hedge het hst => exact ⟨het, hst⟩

/-- Every node the dependency traversal reaches is either on the frontier or
an edge-target reachable from the roots. -/
theorem depReach_sub (g : Graph) (roots found : List Nat)
    (hfs : ∀ x ∈ found, SuccReach g roots x) :
    ∀ t, DepReach g (roots ++ found) t → t ∈ roots ++ found ∨ SuccReach g roots t := by
  intro t h
  induction h with
  | base f hf => exact Or.inl hf
  | step s t k _hs _hex hedge _het _hst ihs =>
    right
    rcases ihs with hmem | hsucc
    · rcases List.mem_append.mp hmem with hr | hf
      · exact SuccReach.base s t k hr hedge
      · exact SuccReach.step s t k (hfs s hf) hedge
    · exact SuccReach.step s t k hsucc hedge

/-- An interior node of the closure has at least one counted in-edge. -/
theorem depReach_interior_pos (g : Graph) (fr R : List Nat) (f : Nat)
    (hR : ∀ x, x ∈ R ↔ DepReach g fr x)
    (hf : f ∈ R) (hnf : f ∉ fr) : 1 ≤ execEdgeSum g R f := by
  have hd : DepReach g fr f := (hR f).mp hf
  cases hd with
  | base x hx => exact absurd hx hnf
  | step s f k hs hex hedge _het _hst =>
    have hsR : s ∈ R := (hR s).mpr hs
    have hmemfil : s ∈ R.filter (fun x => (fnode g x).is_executable) :=
      List.mem_filter.mpr ⟨hsR, by simp [hex]⟩
    have hcnt : 1 ≤ edgeCount g s f := by
      rw [edgeCount]
      exact (edgeCountIn_pos _ f).mpr ⟨k, hedge⟩
    have hmm : edgeCount g s f ∈
        (R.filter (fun x => (fnode g x).is_executable)).map
          (fun x => edgeCount g x f) :=
      List.mem_map_of_mem _ hmemfil
    calc 1 ≤ edgeCount g s f := hcnt
      _ ≤ execEdgeSum g R f := List.single_le_sum (fun x _ => Nat.zero_le x) _ hmm

theorem listEdgeSum_toFinset (g : Graph) (l : List Nat) (t : Nat)
    (hnd : l.Nodup) :
    listEdgeSum g l t = l.toFinset.sum (fun s => edgeCount g s t) := by
  rw [listEdgeSum, List.sum_toFinset _ hnd]

/-- The decrements contributed by a duplicate-free list of executable closure
members never exceed the initial count. -/
theorem listEdgeSum_le_exec (g : Graph) (l R : List Nat) (t : Nat)
    (hlnd : l.Nodup) (hRnd : R.Nodup)
    (hsub : ∀ s ∈ l, s ∈ R ∧ (fnode g s).is_executable = true) :
    listEdgeSum g l t ≤ execEdgeSum g R t := by
  have hfil : (R.filter (fun s => (fnode g s).is_executable)).Nodup :=
    hRnd.filter _
  have h2 : execEdgeSum g R t =
      (R.filter (fun s => (fnode g s).is_executable)).toFinset.sum
        (fun s => edgeCount g s t) := by
    rw [execEdgeSum, List.sum_toFinset _ hfil]
  rw [listEdgeSum_toFinset g l t hlnd, h2]
  apply Finset.sum_le_sum_of_subset
  intro a ha
  rw [List.mem_toFinset] at ha
  rw [List.mem_toFinset, List.mem_filter]
  exact ⟨(hsub a ha).1, by simp [(hsub a ha).2]⟩

theorem perm_getD_cons_eraseIdx (l : List Nat) (i : Nat) (h : i < l.length) :
    l.Perm (l.getD i 0 :: l.eraseIdx i) := by
  induction l generalizing i with
  | nil => simp at h
  | cons a l ih =>
    cases i with
    | zero => simp
    | succ j =>
      have hj : j < l.length := by simpa using h
      have h1 : (a :: l).getD (j + 1) 0 = l.getD j 0 := rfl
      have h2 : (a :: l).eraseIdx (j + 1) = a :: l.eraseIdx j := rfl
      rw [h1, h2]
      exact ((ih j hj).cons a).trans (List.Perm.swap _ a _)

/-- Specification of the output-distribution loop of `evaluate_function`
when every counted target has enough remaining count: no error is raised,
every counted target loses exactly its number of incoming edges, exactly the
targets whose count is exhausted are pushed, each once, and all other counts
are untouched. -/
theorem execEdges_spec (g : Graph) :
    ∀ (edges : List (Option Nat × Nat)) (pending : List Nat) (deps : Nat → Nat),
      (∀ t, (fnode g t).is_executable = true → (fnode g t).is_stochastic = false →
        0 < edgeCountIn edges t → edgeCountIn edges t ≤ deps t) →
      ∃ newP deps',
        execEdges g edges pending deps = (newP ++ pending, deps', false) ∧
        newP.Nodup ∧
        (∀ t, t ∈ newP ↔ ((fnode g t).is_executable = true ∧
          (fnode g t).is_stochastic = false ∧
          0 < edgeCountIn edges t ∧ deps t = edgeCountIn edges t)) ∧
        (∀ t, (fnode g t).is_executable = true → (fnode g t).is_stochastic = false →
          deps' t = deps t - edgeCountIn edges t) ∧
        (∀ t, ¬ ((fnode g t).is_executable = true ∧ (fnode g t).is_stochastic = false) →
          deps' t = deps t) := by
  intro edges
  induction edges with
  | nil =>
    intro pending deps _h
    refine ⟨[], deps, rfl, List.nodup_nil, ?_, ?_, fun t _ => rfl⟩
    · intro t
      simp [edgeCountIn_nil]
    · intro t _ _
      simp [edgeCountIn_nil]
  | cons e rest ih =>
    intro pending deps hpre
    obtain ⟨o, k0⟩ := e
    cases o with
    | none =>
      have hcnt : ∀ t, edgeCountIn ((none, k0) :: rest) t = edgeCountIn rest t := by
        intro t
        rw [edgeCountIn_cons]
        simp
      have hunf : execEdges g ((none, k0) :: rest) pending deps
          = execEdges g rest pending deps := by
        simp only [execEdges]
      rw [hunf]
      obtain ⟨newP, deps', hrun, hnd, hiff, hlaw, hoth⟩ := ih pending deps
        (fun t hex hst hp => by
          rw [← hcnt t] at hp ⊢
          exact hpre t hex hst hp)
      refine ⟨newP, deps', hrun, hnd, ?_, ?_, hoth⟩
      · intro t
        rw [hiff t, hcnt t]
      · intro t hex hst
        rw [hlaw t hex hst, hcnt t]
    | some t0 =>
      by_cases hskip : (fnode g t0).is_stochastic = true ∨
          (fnode g t0).is_executable = false
      · have hcnt : ∀ t, (fnode g t).is_executable = true →
            (fnode g t).is_stochastic = false →
            edgeCountIn ((some t0, k0) :: rest) t = edgeCountIn rest t := by
          intro t hex hst
          rw [edgeCountIn_cons]
          have : ¬ ((some t0 : Option Nat) = some t) := by
            intro hc
            cases hc
            rcases hskip with h' | h'
            · rw [hst] at h'
              simp at h'
            · rw [hex] at h'
              simp at h'
          simp [this]
        have hunf : execEdges g ((some t0, k0) :: rest) pending deps
            = execEdges g rest pending deps := by
          simp only [execEdges, if_pos hskip]
        rw [hunf]
        obtain ⟨newP, deps', hrun, hnd, hiff, hlaw, hoth⟩ := ih pending deps
          (fun t hex hst hp => by
            rw [← hcnt t hex hst] at hp ⊢
            exact hpre t hex hst hp)
        refine ⟨newP, deps', hrun, hnd, ?_, ?_, hoth⟩
        · intro t
          rw [hiff t]
          constructor
          · intro ⟨a, b, c, d⟩
            exact ⟨a, b, by rw [hcnt t a b]; exact c, by rw [hcnt t a b]; exact d⟩
          · intro ⟨a, b, c, d⟩
            exact ⟨a, b, by rw [← hcnt t a b]; exact c, by rw [← hcnt t a b]; exact d⟩
        · intro t hex hst
          rw [hlaw t hex hst, hcnt t hex hst]
      · push_neg at hskip
        have hst0 : (fnode g t0).is_stochastic = false := by
          have := hskip.1
          revert this
          cases (fnode g t0).is_stochastic <;> simp
        have hex0 : (fnode g t0).is_executable = true := by
          have := hskip.2
          revert this
          cases (fnode g t0).is_executable <;> simp
        have hcnt0 : edgeCountIn ((some t0, k0) :: rest) t0
            = edgeCountIn rest t0 + 1 := by
          rw [edgeCountIn_cons]
          simp [Nat.add_comm]
        have hcne : ∀ t, t ≠ t0 →
            edgeCountIn ((some t0, k0) :: rest) t = edgeCountIn rest t := by
          intro t ht
          rw [edgeCountIn_cons]
          have : ¬ ((some t0 : Option Nat) = some t) := by
            intro hc
            cases hc
            exact ht rfl
          simp [this]
        rcases hd : deps t0 with _ | n
        · exfalso
          have := hpre t0 hex0 hst0 (by omega)
          omega
        · have hsk : ¬ ((fnode g t0).is_stochastic = true ∨
              (fnode g t0).is_executable = false) := by
            rw [hst0, hex0]
            simp
          have hunf : execEdges g ((some t0, k0) :: rest) pending deps
              = (if n = 0
                  then execEdges g rest (t0 :: pending)
                    (fun x => if x = t0 then n else deps x)
                  else execEdges g rest pending
                    (fun x => if x = t0 then n else deps x)) := by
            simp only [execEdges, if_neg hsk]
            rw [hd]
          have hpre2 : ∀ t, (fnode g t).is_executable = true →
              (fnode g t).is_stochastic = false →
              0 < edgeCountIn rest t →
              edgeCountIn rest t ≤ (fun x => if x = t0 then n else deps x) t := by
            intro t hex hst hp
            by_cases hq : t = t0
            · subst hq
              have h1 := hpre t hex hst (by rw [hcnt0]; omega)
              rw [hcnt0, hd] at h1
              simp only [eq_self_iff_true, if_true]
              omega
            · simp only [if_neg hq]
              rw [← hcne t hq] at hp ⊢
              exact hpre t hex hst hp
          by_cases hn : n = 0
          · subst hn
            rw [hunf, if_pos rfl]
            obtain ⟨newP1, deps', hrun, hnd, hiff, hlaw, hoth⟩ :=
              ih (t0 :: pending) (fun x => if x = t0 then 0 else deps x) hpre2
            have hrest0 : edgeCountIn rest t0 = 0 := by
              by_contra hc
              have := hpre2 t0 hex0 hst0 (by omega)
              simp at this
              omega
            have ht0n : t0 ∉ newP1 := by
              intro hc
              have := ((hiff t0).mp hc).2.2.1
              omega
            refine ⟨newP1 ++ [t0], deps', ?_, ?_, ?_, ?_, ?_⟩
            · rw [hrun, List.append_cons]
            · refine List.Nodup.append hnd (List.nodup_singleton t0) ?_
              intro a ha hb
              rcases List.mem_singleton.mp hb with rfl
              exact ht0n ha
            · intro t
              rw [List.mem_append, List.mem_singleton, hiff t]
              constructor
              · intro hc
                rcases hc with ⟨a, b, c, d⟩ | rfl
                · have htne : t ≠ t0 := by
                    intro hq
                    subst hq
                    omega
                  rw [hcne t htne]
                  rw [if_neg htne] at d
                  exact ⟨a, b, c, d⟩
                · rw [hcnt0, hrest0, hd]
                  exact ⟨hex0, hst0, by omega, by omega⟩
              · intro ⟨a, b, c, d⟩
                by_cases hq : t = t0
                · exact Or.inr hq
                · left
                  rw [hcne t hq] at c d
                  rw [if_neg hq]
                  exact ⟨a, b, c, d⟩
            · intro t hex hst
              rw [hlaw t hex hst]
              by_cases hq : t = t0
              · subst hq
                rw [if_pos rfl, hcnt0, hrest0, hd]
              · rw [if_neg hq, hcne t hq]
            · intro t hflags
              rw [hoth t hflags]
              have hq : t ≠ t0 := by
                intro hc
                subst hc
                exact hflags ⟨hex0, hst0⟩
              rw [if_neg hq]
          · rw [hunf, if_neg hn]
            obtain ⟨newP1, deps', hrun, hnd, hiff, hlaw, hoth⟩ :=
              ih pending (fun x => if x = t0 then n else deps x) hpre2
            refine ⟨newP1, deps', hrun, hnd, ?_, ?_, ?_⟩
            · intro t
              rw [hiff t]
              by_cases hq : t = t0
              · subst hq
                rw [hcnt0, hd]
                simp only [eq_self_iff_true, if_true]
                constructor
                · intro ⟨a, b, c, d⟩
                  exact ⟨a, b, by omega, by omega⟩
                · intro ⟨a, b, c, d⟩
                  exact ⟨a, b, by omega, by omega⟩
              · rw [hcne t hq]
                simp only [if_neg hq]
            · intro t hex hst
              rw [hlaw t hex hst]
              by_cases hq : t = t0
              · subst hq
                rw [if_pos rfl, hcnt0, hd]
                omega
              · rw [if_neg hq, hcne t hq]
            · intro t hflags
              rw [hoth t hflags]
              have hq : t ≠ t0 := by
                intro hc
                subst hc
                exact hflags ⟨hex0, hst0⟩
              rw [if_neg hq]

theorem listEdgeSum_append (g : Graph) (l1 l2 : List Nat) (t : Nat) :
    listEdgeSum g (l1 ++ l2) t = listEdgeSum g l1 t + listEdgeSum g l2 t := by
  simp [listEdgeSum]

theorem listEdgeSum_singleton (g : Graph) (f t : Nat) :
    listEdgeSum g [f] t = edgeCount g f t := by
  simp [listEdgeSum]

theorem perm_block (X N E : List Nat) : (X ++ (N ++ E)).Perm (N ++ (X ++ E)) := by
  have h1 : X ++ (N ++ E) = (X ++ N) ++ E := (List.append_assoc X N E).symm
  have h2 : (N ++ X) ++ E = N ++ (X ++ E) := List.append_assoc N X E
  rw [h1, ← h2]
  exact List.perm_append_comm.append_right E

/-- Everything the engine may fire belongs to the dependency closure and is
executable. -/
theorem firesSpec_mem_R (g : Graph) (roots found R : List Nat) (f : Nat)
    (hR : ∀ x, x ∈ R ↔ DepReach g (roots ++ found) x)
    (hfound : ∀ t ∈ found, (fnode g t).is_stochastic = true ∧
      (fnode g t).is_executable = true)
    (h : FiresSpec g roots found f) :
    f ∈ R ∧ (fnode g f).is_executable = true := by
  rcases h with ⟨hr, hex⟩ | hf | ⟨hnf, hd⟩
  · exact ⟨(hR f).mpr (DepReach.base f (List.mem_append_left _ hr)), hex⟩
  · exact ⟨(hR f).mpr (DepReach.base f (List.mem_append_right _ hf)), (hfound f hf).2⟩
  · exact ⟨(hR f).mpr hd, (depReach_flags g _ f hd hnf).1⟩

theorem engineStep_nil (g : Graph) (deps : Nat → Nat) (fired : List Nat)
    (err : Bool) (pick : Nat) :
    engineStep g { pending := [], deps := deps, fired := fired, error := err } pick
      = { pending := [], deps := deps, fired := fired, error := err } := rfl

theorem engineStep_cons (g : Graph) (a : Nat) (l : List Nat) (deps : Nat → Nat)
    (fired : List Nat) (pick : Nat) :
    engineStep g { pending := a :: l, deps := deps, fired := fired, error := false } pick
      = (match execEdges g
            (fnode g ((a :: l).getD (pick % (a :: l).length) 0)).next_functions
            ((a :: l).eraseIdx (pick % (a :: l).length)) deps with
        | (p', d', e') =>
          { pending := p', deps := d',
            fired := fired ++ [(a :: l).getD (pick % (a :: l).length) 0],
            error := e' }) := rfl

/-- One engine step preserves the execution invariant.  `R` enumerates the
dependency closure of the frontier `roots ++ found` and `deps0` its initial
counts.  The hypothesis `hnoSucc` is the proviso of amended claim C1: no
root is re-discoverable as an edge target.  (Acyclicity is not needed for
preservation — only the final completeness argument uses it.) -/
theorem engineStep_inv (g : Graph) (roots found R : List Nat) (deps0 : Nat → Nat)
    (hR : ∀ x, x ∈ R ↔ DepReach g (roots ++ found) x)
    (hRnd : R.Nodup)
    (hRcl : ∀ s ∈ R, (fnode g s).is_executable = true → ∀ t k,
      (some t, k) ∈ (fnode g s).next_functions →
      (fnode g t).is_executable = true → (fnode g t).is_stochastic = false →
      t ∈ R)
    (hdeps0 : ∀ x, (fnode g x).is_executable = true →
      (fnode g x).is_stochastic = false → deps0 x = execEdgeSum g R x)
    (hfound : ∀ t ∈ found, (fnode g t).is_stochastic = true ∧
      (fnode g t).is_executable = true)
    (hfoundSucc : ∀ t ∈ found, SuccReach g roots t)
    (hnoSucc : ∀ r ∈ roots, ¬ SuccReach g roots r)
    (st : EngineState) (pick : Nat)
    (hinv : EngineInv g roots found R deps0 st) :
    EngineInv g roots found R deps0 (engineStep g st pick) := by
  obtain ⟨pend, deps, fired, err⟩ := st
  obtain ⟨herr, hnd, hmem, hcnt1, hlaw⟩ := hinv
  dsimp only at herr hnd hmem hcnt1 hlaw
  subst herr
  cases pend with
  | nil =>
    rw [engineStep_nil]
    exact ⟨rfl, hnd, hmem, hcnt1, hlaw⟩
  | cons a l =>
    rw [engineStep_cons]
    have hilt : pick % (a :: l).length < (a :: l).length :=
      Nat.mod_lt _ (by simp)
    have hperm0 : (a :: l).Perm
        (((a :: l).getD (pick % (a :: l).length) 0) ::
          (a :: l).eraseIdx (pick % (a :: l).length)) :=
      perm_getD_cons_eraseIdx _ _ hilt
    obtain ⟨f, hfdef⟩ : ∃ f, (a :: l).getD (pick % (a :: l).length) 0 = f := ⟨_, rfl⟩
    obtain ⟨E, hEdef⟩ : ∃ E, (a :: l).eraseIdx (pick % (a :: l).length) = E := ⟨_, rfl⟩
    rw [hfdef, hEdef]
    rw [hfdef, hEdef] at hperm0
    have hfmem : f ∈ a :: l := hperm0.symm.subset (List.mem_cons_self f E)
    have hEsub : ∀ x ∈ E, x ∈ a :: l := by
      intro x hx
      exact hperm0.symm.subset (List.mem_cons_of_mem f hx)
    have hpermF : (fired ++ (a :: l)).Perm (fired ++ (f :: E)) :=
      hperm0.append_left fired
    have hndE : (fired ++ (f :: E)).Nodup := hpermF.nodup_iff.mp hnd
    obtain ⟨hndFired, hndfE, hdisjFfE⟩ := List.nodup_append.mp hndE
    obtain ⟨hfE, hndE'⟩ := List.nodup_cons.mp hndfE
    have hfnotfired : f ∉ fired := by
      intro hc
      exact hdisjFfE hc (List.mem_cons_self f E)
    have hFSf : FiresSpec g roots found f :=
      hmem f (List.mem_append_right _ hfmem)
    obtain ⟨hfR, hfex⟩ := firesSpec_mem_R g roots found R f hR hfound hFSf
    have htarget : ∀ t k, (some t, k) ∈ (fnode g f).next_functions →
        (fnode g t).is_executable = true → (fnode g t).is_stochastic = false →
        t ∈ R ∧ t ∉ roots ++ found := by
      intro t k he het hst
      refine ⟨hRcl f hfR hfex t k he het hst, ?_⟩
      intro hmemfr
      have hsucc : SuccReach g roots t := by
        rcases depReach_sub g roots found hfoundSucc f ((hR f).mp hfR) with hfr | hsf
        · rcases List.mem_append.mp hfr with h' | h'
          · exact SuccReach.base f t k h' he
          · exact SuccReach.step f t k (hfoundSucc f h') he
        · exact SuccReach.step f t k hsf he
      rcases List.mem_append.mp hmemfr with h' | h'
      · exact hnoSucc t h' hsucc
      · rw [(hfound t h').1] at hst
        simp at hst
    have hfiredRE : ∀ s ∈ fired ++ [f], s ∈ R ∧ (fnode g s).is_executable = true := by
      intro s hs
      rcases List.mem_append.mp hs with h' | h'
      · exact firesSpec_mem_R g roots found R s hR hfound
          (hmem s (List.mem_append_left _ h'))
      · rcases List.mem_singleton.mp h' with rfl
        exact ⟨hfR, hfex⟩
    have hndFf : (fired ++ [f]).Nodup := by
      rw [List.nodup_append]
      refine ⟨hndFired, List.nodup_singleton f, ?_⟩
      intro x hx hx2
      rcases List.mem_singleton.mp hx2 with rfl
      exact hfnotfired hx
    have hbound : ∀ x, (fnode g x).is_executable = true →
        (fnode g x).is_stochastic = false →
        listEdgeSum g fired x + edgeCountIn (fnode g f).next_functions x ≤ deps0 x := by
      intro x hex hst
      have hb := listEdgeSum_le_exec g (fired ++ [f]) R x hndFf hRnd hfiredRE
      rw [listEdgeSum_append, listEdgeSum_singleton] at hb
      rw [hdeps0 x hex hst]
      exact hb
    have hpre : ∀ t, (fnode g t).is_executable = true →
        (fnode g t).is_stochastic = false →
        0 < edgeCountIn (fnode g f).next_functions t →
        edgeCountIn (fnode g f).next_functions t ≤ deps t := by
      intro t het hst hp
      obtain ⟨k, hk⟩ := (edgeCountIn_pos _ t).mp hp
      obtain ⟨htR, htnf⟩ := htarget t k hk het hst
      obtain ⟨hle, hlt, _heq⟩ := hlaw t htnf htR
      have hb := hbound t het hst
      have hltb : listEdgeSum g fired t < deps0 t := by omega
      obtain ⟨hdt, _, _⟩ := hlt hltb
      omega
    obtain ⟨newP, deps', hrun, hndP, hiffP, hlawP, hothP⟩ :=
      execEdges_spec g (fnode g f).next_functions E deps hpre
    rw [hrun]
    dsimp only [EngineInv]
    have hnewPfacts : ∀ t ∈ newP, t ∈ R ∧ t ∉ roots ++ found ∧
        t ∉ fired ∧ t ∉ (a :: l) := by
      intro t ht
      obtain ⟨het, hst, hposc, hdepsEq⟩ := (hiffP t).mp ht
      obtain ⟨k, hk⟩ := (edgeCountIn_pos _ t).mp hposc
      obtain ⟨htR, htnf⟩ := htarget t k hk het hst
      obtain ⟨hle, hlt, _heq⟩ := hlaw t htnf htR
      have hb := hbound t het hst
      have hltb : listEdgeSum g fired t < deps0 t := by omega
      obtain ⟨_, hnf1, hnp1⟩ := hlt hltb
      exact ⟨htR, htnf, hnf1, hnp1⟩
    have hpermBig : ((fired ++ [f]) ++ (newP ++ E)).Perm
        (newP ++ (fired ++ (f :: E))) := by
      have h1 := perm_block (fired ++ [f]) newP E
      have h2 : (fired ++ [f]) ++ E = fired ++ (f :: E) := by
        rw [List.append_assoc, List.singleton_append]
      rw [h2] at h1
      exact h1
    have hcount_split : ∀ x, ((fired ++ [f]) ++ (newP ++ E)).count x
        = newP.count x + (fired ++ (a :: l)).count x := by
      intro x
      rw [hpermBig.count_eq x, List.count_append]
      rw [← hpermF.count_eq x]
    refine ⟨rfl, ?_, ?_, ?_, ?_⟩
    · refine hpermBig.symm.nodup ?_
      rw [List.nodup_append]
      refine ⟨hndP, hndE, ?_⟩
      intro x hx hx2
      obtain ⟨_, _, hnf1, hnp1⟩ := hnewPfacts x hx
      rcases List.mem_append.mp hx2 with h' | h'
      · exact hnf1 h'
      · rcases List.mem_cons.mp h' with rfl | h''
        · exact hnp1 hfmem
        · exact hnp1 (hEsub x h'')
    · intro x hx
      rcases List.mem_append.mp hx with h' | h'
      · rcases List.mem_append.mp h' with h'' | h''
        · exact hmem x (List.mem_append_left _ h'')
        · rcases List.mem_singleton.mp h'' with rfl
          exact hFSf
      · rcases List.mem_append.mp h' with h'' | h''
        · obtain ⟨htR, htnf, _, _⟩ := hnewPfacts x h''
          exact Or.inr (Or.inr ⟨htnf, (hR x).mp htR⟩)
        · exact hmem x (List.mem_append_right _ (hEsub x h''))
    · intro x hx
      rw [hcount_split x]
      have hxfr : x ∈ roots ++ found := by
        rcases hx with ⟨h', _⟩ | h'
        · exact List.mem_append_left _ h'
        · exact List.mem_append_right _ h'
      have hnp : x ∉ newP := by
        intro hc
        exact (hnewPfacts x hc).2.1 hxfr
      rw [List.count_eq_zero_of_not_mem hnp]
      rw [Nat.zero_add]
      exact hcnt1 x hx
    · intro x hxnf hxR
      obtain ⟨hex, hst⟩ := depReach_flags g _ x ((hR x).mp hxR) hxnf
      obtain ⟨hle, hlt, heq⟩ := hlaw x hxnf hxR
      have hb := hbound x hex hst
      have hdlaw := hlawP x hex hst
      have hcc : edgeCount g f x = edgeCountIn (fnode g f).next_functions x := rfl
      rw [listEdgeSum_append, listEdgeSum_singleton, hcc]
      refine ⟨by omega, ?_, ?_⟩
      · intro hltb'
        have hltb : listEdgeSum g fired x < deps0 x := by omega
        obtain ⟨hdx, hxnfired, hxnpend⟩ := hlt hltb
        refine ⟨by rw [hdlaw, hdx]; omega, ?_, ?_⟩
        · intro hc
          rcases List.mem_append.mp hc with h' | h'
          · exact hxnfired h'
          · rcases List.mem_singleton.mp h' with rfl
            exact hxnpend hfmem
        · intro hc
          rcases List.mem_append.mp hc with h' | h'
          · obtain ⟨_, _, _, hnp1⟩ := hnewPfacts x h'
            have := (hiffP x).mp h'
            omega
          · exact hxnpend (hEsub x h')
      · intro heqb'
        by_cases hcz : edgeCountIn (fnode g f).next_functions x = 0
        · have hfeq : listEdgeSum g fired x = deps0 x := by omega
          obtain ⟨hdx0, hcount⟩ := heq hfeq
          refine ⟨by rw [hdlaw, hdx0, hcz], ?_⟩
          rw [hcount_split x]
          have hnp : x ∉ newP := by
            intro hc
            have := (hiffP x).mp hc
            omega
          rw [List.count_eq_zero_of_not_mem hnp, Nat.zero_add]
          rw [hpermF.count_eq x] at hcount
          rw [← hpermF.count_eq x] at hcount
          exact hcount
        · have hcpos : 0 < edgeCountIn (fnode g f).next_functions x :=
            Nat.pos_of_ne_zero hcz
          have hltb : listEdgeSum g fired x < deps0 x := by omega
          obtain ⟨hdx, hxnfired, hxnpend⟩ := hlt hltb
          have hdxc : deps x = edgeCountIn (fnode g f).next_functions x := by
            rw [hdx]
            omega
          have hxin : x ∈ newP := (hiffP x).mpr ⟨hex, hst, hcpos, hdxc⟩
          refine ⟨by rw [hdlaw, hdxc]; omega, ?_⟩
          rw [hcount_split x]
          have hc1 : newP.count x = 1 := List.count_eq_one_of_mem hndP hxin
          have hc0 : (fired ++ (a :: l)).count x = 0 := by
            apply List.count_eq_zero_of_not_mem
            intro hc
            rcases List.mem_append.mp hc with h' | h'
            · exact hxnfired h'
            · exact hxnpend h'
          rw [hc1, hc0]

theorem target_mem_allTargets (g : Graph) (s t k : Nat)
    (h : (some t, k) ∈ (fnode g s).next_functions) : t ∈ allTargets g := by
  have hs : s < g.length := by
    by_contra hge
    push_neg at hge
    rw [fnode, List.getD_eq_default _ _ hge] at h
    have hdef : (default : FNode).next_functions = [] := rfl
    rw [hdef] at h
    exact absurd h (List.not_mem_nil _)
  rw [allTargets, List.mem_flatten]
  refine ⟨(fnode g s).next_functions.filterMap (fun e => e.1), ?_, ?_⟩
  · rw [List.mem_map]
    refine ⟨fnode g s, ?_, rfl⟩
    rw [fnode, List.getD_eq_getElem _ _ hs]
    exact List.getElem_mem hs
  · rw [List.mem_filterMap]
    exact ⟨(some t, k), h, rfl⟩

theorem unseenTCount_append (g : Graph) (new seen : List Nat)
    (hnd : new.Nodup) (hdisj : ∀ t ∈ new, t ∉ seen)
    (hmemT : ∀ t ∈ new, t ∈ allTargets g) :
    unseenTCount g (new ++ seen) + new.length = unseenTCount g seen := by
  have hsub : new.toFinset ⊆ (allTargets g).toFinset.filter (fun i => i ∉ seen) := by
    intro a ha
    rw [List.mem_toFinset] at ha
    rw [Finset.mem_filter, List.mem_toFinset]
    exact ⟨hmemT a ha, hdisj a ha⟩
  have hset : (allTargets g).toFinset.filter (fun i => i ∉ new ++ seen)
      = ((allTargets g).toFinset.filter (fun i => i ∉ seen)) \ new.toFinset := by
    ext a
    simp only [Finset.mem_filter, Finset.mem_sdiff, List.mem_append,
      List.mem_toFinset]
    tauto
  rw [unseenTCount, unseenTCount, hset, Finset.card_sdiff hsub]
  rw [List.toFinset_card_of_nodup hnd]
  have hle := Finset.card_le_card hsub
  rw [List.toFinset_card_of_nodup hnd] at hle
  omega

/-- Specification of the inner edge loop of `find_stochastic_functions`: the
search queue and seen list grow by the same block of fresh targets, every
non-null target ends up seen, and the found list grows by exactly the fresh
executable stochastic targets. -/
theorem stochEdges_spec (g : Graph) :
    ∀ (edges : List (Option Nat × Nat)) (sq seen found : List Nat)
      (sq' seen' found' : List Nat),
      stochEdges g edges sq seen found = (sq', seen', found') →
      ∃ new nf,
        sq' = new ++ sq ∧ seen' = new ++ seen ∧ found' = found ++ nf ∧
        new.Nodup ∧ nf.Nodup ∧
        (∀ t ∈ new, t ∉ seen ∧ ∃ k, (some t, k) ∈ edges) ∧
        (∀ t, t ∈ nf ↔ (t ∈ new ∧ (fnode g t).is_stochastic = true ∧
          (fnode g t).is_executable = true)) ∧
        (∀ t k, (some t, k) ∈ edges → t ∈ seen') := by
  intro edges
  induction edges with
  | nil =>
    intro sq seen found sq' seen' found' h
    simp only [stochEdges] at h
    cases h
    refine ⟨[], [], by simp, by simp, by simp, List.nodup_nil, List.nodup_nil,
      by simp, by simp, by simp⟩
  | cons e rest ih =>
    intro sq seen found sq' seen' found' h
    obtain ⟨o, k0⟩ := e
    cases o with
    | none =>
      simp only [stochEdges] at h
      obtain ⟨new, nf, hq, hs, hf, hndn, hndf, hmem, hiff, hcov⟩ :=
        ih sq seen found sq' seen' found' h
      refine ⟨new, nf, hq, hs, hf, hndn, hndf, ?_, hiff, ?_⟩
      · intro t ht
        obtain ⟨h1, k, h2⟩ := hmem t ht
        exact ⟨h1, k, List.mem_cons_of_mem _ h2⟩
      · intro t k hmm
        rcases List.mem_cons.mp hmm with h' | h'
        · exact absurd h' (by simp)
        · exact hcov t k h'
    | some t0 =>
      by_cases hseen : t0 ∈ seen
      · have hcond : ¬ ((fnode g t0).is_stochastic ∧ (fnode g t0).is_executable ∧
            ¬ t0 ∈ seen) := by
          intro hc
          exact hc.2.2 hseen
        simp only [stochEdges] at h
        rw [if_neg hcond, if_pos hseen] at h
        obtain ⟨new, nf, hq, hs, hf, hndn, hndf, hmem, hiff, hcov⟩ :=
          ih sq seen found sq' seen' found' h
        refine ⟨new, nf, hq, hs, hf, hndn, hndf, ?_, hiff, ?_⟩
        · intro t ht
          obtain ⟨h1, k, h2⟩ := hmem t ht
          exact ⟨h1, k, List.mem_cons_of_mem _ h2⟩
        · intro t k hmm
          rcases List.mem_cons.mp hmm with h' | h'
          · have h1 : t = t0 ∧ k = k0 := by simpa using h'
            rw [h1.1, hs]
            exact List.mem_append_right _ hseen
          · exact hcov t k h'
      · by_cases hse : (fnode g t0).is_stochastic = true ∧
            (fnode g t0).is_executable = true
        · have hcond : (fnode g t0).is_stochastic ∧ (fnode g t0).is_executable ∧
              ¬ t0 ∈ seen := ⟨hse.1, hse.2, hseen⟩
          simp only [stochEdges] at h
          rw [if_pos hcond, if_neg hseen] at h
          obtain ⟨new1, nf1, hq, hs, hf, hndn, hndf, hmem, hiff, hcov⟩ :=
            ih (t0 :: sq) (t0 :: seen) (found ++ [t0]) sq' seen' found' h
          have ht0new : t0 ∉ new1 := by
            intro hc
            exact (hmem t0 hc).1 (List.mem_cons_self t0 seen)
          have ht0nf : t0 ∉ nf1 := by
            intro hc
            exact ht0new ((hiff t0).mp hc).1
          refine ⟨new1 ++ [t0], t0 :: nf1, ?_, ?_, ?_, ?_, ?_, ?_, ?_, ?_⟩
          · rw [hq, List.append_cons]
          · rw [hs, List.append_cons]
          · rw [hf, List.append_assoc, List.singleton_append]
          · refine List.Nodup.append hndn (List.nodup_singleton t0) ?_
            intro a ha hb
            rcases List.mem_singleton.mp hb with rfl
            exact ht0new ha
          · exact List.nodup_cons.mpr ⟨ht0nf, hndf⟩
          · intro t ht
            rcases List.mem_append.mp ht with h' | h'
            · obtain ⟨h1, k, h2⟩ := hmem t h'
              exact ⟨fun hc => h1 (List.mem_cons_of_mem _ hc), k,
                List.mem_cons_of_mem _ h2⟩
            · rcases List.mem_singleton.mp h' with rfl
              exact ⟨hseen, k0, List.mem_cons_self _ _⟩
          · intro t
            rw [List.mem_cons, hiff t]
            constructor
            · intro hc
              rcases hc with rfl | ⟨h1, h2, h3⟩
              · exact ⟨List.mem_append_right _ (List.mem_singleton_self t), hse.1,
                  hse.2⟩
              · exact ⟨List.mem_append_left _ h1, h2, h3⟩
            · intro ⟨h1, h2, h3⟩
              rcases List.mem_append.mp h1 with h' | h'
              · exact Or.inr ⟨h', h2, h3⟩
              · rcases List.mem_singleton.mp h' with rfl
                exact Or.inl rfl
          · intro t k hmm
            rcases List.mem_cons.mp hmm with h' | h'
            · have h1 : t = t0 ∧ k = k0 := by simpa using h'
              rw [h1.1, hs]
              exact List.mem_append_right _ (List.mem_cons_self t0 seen)
            · exact hcov t k h'
        · have hcond : ¬ ((fnode g t0).is_stochastic ∧ (fnode g t0).is_executable ∧
              ¬ t0 ∈ seen) := by
            intro hc
            exact hse ⟨hc.1, hc.2.1⟩
          simp only [stochEdges] at h
          rw [if_neg hcond, if_neg hseen] at h
          obtain ⟨new1, nf1, hq, hs, hf, hndn, hndf, hmem, hiff, hcov⟩ :=
            ih (t0 :: sq) (t0 :: seen) found sq' seen' found' h
          have ht0new : t0 ∉ new1 := by
            intro hc
            exact (hmem t0 hc).1 (List.mem_cons_self t0 seen)
          refine ⟨new1 ++ [t0], nf1, ?_, ?_, hf, ?_, hndf, ?_, ?_, ?_⟩
          · rw [hq, List.append_cons]
          · rw [hs, List.append_cons]
          · refine List.Nodup.append hndn (List.nodup_singleton t0) ?_
            intro a ha hb
            rcases List.mem_singleton.mp hb with rfl
            exact ht0new ha
          · intro t ht
            rcases List.mem_append.mp ht with h' | h'
            · obtain ⟨h1, k, h2⟩ := hmem t h'
              exact ⟨fun hc => h1 (List.mem_cons_of_mem _ hc), k,
                List.mem_cons_of_mem _ h2⟩
            · rcases List.mem_singleton.mp h' with rfl
              exact ⟨hseen, k0, List.mem_cons_self _ _⟩
          · intro t
            rw [hiff t]
            constructor
            · intro ⟨h1, h2, h3⟩
              exact ⟨List.mem_append_left _ h1, h2, h3⟩
            · intro ⟨h1, h2, h3⟩
              rcases List.mem_append.mp h1 with h' | h'
              · exact ⟨h', h2, h3⟩
              · rcases List.mem_singleton.mp h' with rfl
                exact absurd ⟨h2, h3⟩ hse
          · intro t k hmm
            rcases List.mem_cons.mp hmm with h' | h'
            · have h1 : t = t0 ∧ k = k0 := by simpa using h'
              rw [h1.1, hs]
              exact List.mem_append_right _ (List.mem_cons_self t0 seen)
            · exact hcov t k h'

/-- Invariant-based specification of the `find_stochastic_functions`
worklist; `p` lists the already-popped nodes. -/
theorem stochLoop_spec (g : Graph) (roots : List Nat) :
    ∀ (fuel : Nat) (sq seen found p : List Nat),
      (∀ x ∈ seen, x ∈ p ∨ x ∈ sq) →
      (∀ x ∈ roots, x ∈ p ∨ x ∈ sq) →
      (∀ x ∈ sq, x ∈ roots ∨ SuccReach g roots x) →
      (∀ x ∈ seen, SuccReach g roots x) →
      (∀ s ∈ p, ∀ t k, (some t, k) ∈ (fnode g s).next_functions → t ∈ seen) →
      found.Nodup →
      (∀ t, t ∈ found ↔ ((fnode g t).is_stochastic = true ∧
        (fnode g t).is_executable = true ∧ t ∈ seen)) →
      sq.length + unseenTCount g seen ≤ fuel →
      ∃ (foundF seenF pF : List Nat),
        stochLoop g fuel sq seen found = some (foundF, seenF) ∧
        foundF.Nodup ∧
        (∀ t, t ∈ foundF ↔ ((fnode g t).is_stochastic = true ∧
          (fnode g t).is_executable = true ∧ t ∈ seenF)) ∧
        (∀ x ∈ seen, x ∈ seenF) ∧
        (∀ x ∈ seenF, SuccReach g roots x) ∧
        (∀ x ∈ seenF, x ∈ pF) ∧
        (∀ x ∈ roots, x ∈ pF) ∧
        (∀ s ∈ pF, ∀ t k, (some t, k) ∈ (fnode g s).next_functions →
          t ∈ seenF) := by
  intro fuel
  induction fuel with
  | zero =>
    intro sq seen found p h1 h2 h3 h4 h5 h6 h7 hfuel
    cases sq with
    | nil =>
      refine ⟨found, seen, p, by simp [stochLoop], h6, h7, fun x hx => hx, h4,
        ?_, ?_, h5⟩
      · intro x hx
        rcases h1 x hx with h' | h'
        · exact h'
        · exact absurd h' (List.not_mem_nil x)
      · intro x hx
        rcases h2 x hx with h' | h'
        · exact h'
        · exact absurd h' (List.not_mem_nil x)
    | cons f rest =>
      rw [List.length_cons] at hfuel
      omega
  | succ fuel ih =>
    intro sq seen found p h1 h2 h3 h4 h5 h6 h7 hfuel
    cases sq with
    | nil =>
      refine ⟨found, seen, p, by simp [stochLoop], h6, h7, fun x hx => hx, h4,
        ?_, ?_, h5⟩
      · intro x hx
        rcases h1 x hx with h' | h'
        · exact h'
        · exact absurd h' (List.not_mem_nil x)
      · intro x hx
        rcases h2 x hx with h' | h'
        · exact h'
        · exact absurd h' (List.not_mem_nil x)
    | cons f rest =>
      rcases hde : stochEdges g (fnode g f).next_functions rest seen found
        with ⟨sq1, seen1, found1⟩
      have hstep : stochLoop g (fuel + 1) (f :: rest) seen found
          = stochLoop g fuel sq1 seen1 found1 := by
        simp only [stochLoop, hde]
      rw [hstep]
      obtain ⟨new, nf, hq, hs, hf, hndn, hndf, hmemn, hiffn, hcovn⟩ :=
        stochEdges_spec g _ rest seen found sq1 seen1 found1 hde
      subst hq
      subst hs
      subst hf
      have hfsucc : f ∈ roots ∨ SuccReach g roots f :=
        h3 f (List.mem_cons_self f rest)
      have hnewSucc : ∀ t ∈ new, SuccReach g roots t := by
        intro t ht
        obtain ⟨_, k, hk⟩ := hmemn t ht
        rcases hfsucc with h' | h'
        · exact SuccReach.base f t k h' hk
        · exact SuccReach.step f t k h' hk
      have hfoundseen : ∀ t ∈ found, t ∈ seen := fun t ht => ((h7 t).mp ht).2.2
      have hres := ih (new ++ rest) (new ++ seen) (found ++ nf) (p ++ [f])
        ?_ ?_ ?_ ?_ ?_ ?_ ?_ ?_
      · obtain ⟨foundF, seenF, pF, hrun, a1, a2, a3, a4, a5, a6, a7⟩ := hres
        exact ⟨foundF, seenF, pF, hrun, a1, a2,
          fun x hx => a3 x (List.mem_append_right _ hx), a4, a5, a6, a7⟩
      · intro x hx
        rcases List.mem_append.mp hx with h' | h'
        · exact Or.inr (List.mem_append_left _ h')
        · rcases h1 x h' with h'' | h''
          · exact Or.inl (List.mem_append_left _ h'')
          · rcases List.mem_cons.mp h'' with rfl | h'''
            · exact Or.inl (List.mem_append_right _ (List.mem_singleton_self x))
            · exact Or.inr (List.mem_append_right _ h''')
      · intro x hx
        rcases h2 x hx with h' | h'
        · exact Or.inl (List.mem_append_left _ h')
        · rcases List.mem_cons.mp h' with rfl | h''
          · exact Or.inl (List.mem_append_right _ (List.mem_singleton_self x))
          · exact Or.inr (List.mem_append_right _ h'')
      · intro x hx
        rcases List.mem_append.mp hx with h' | h'
        · exact Or.inr (hnewSucc x h')
        · exact h3 x (List.mem_cons_of_mem f h')
      · intro x hx
        rcases List.mem_append.mp hx with h' | h'
        · exact hnewSucc x h'
        · exact h4 x h'
      · intro s hs t k he
        rcases List.mem_append.mp hs with h' | h'
        · exact List.mem_append_right _ (h5 s h' t k he)
        · rcases List.mem_singleton.mp h' with rfl
          exact hcovn t k he
      · refine List.Nodup.append h6 hndf ?_
        intro a ha hb
        have h1a := hfoundseen a ha
        have h2a := ((hiffn a).mp hb).1
        exact (hmemn a h2a).1 h1a
      · intro t
        rw [List.mem_append, h7 t, hiffn t, List.mem_append]
        constructor
        · intro hc
          rcases hc with ⟨a, b, c⟩ | ⟨a, b, c⟩
          · exact ⟨a, b, Or.inr c⟩
          · exact ⟨b, c, Or.inl a⟩
        · intro ⟨a, b, c⟩
          rcases c with h' | h'
          · exact Or.inr ⟨h', a, b⟩
          · exact Or.inl ⟨a, b, h'⟩
      · have hlt : ∀ t ∈ new, t ∈ allTargets g := by
          intro t ht
          obtain ⟨_, k, hk⟩ := hmemn t ht
          exact target_mem_allTargets g f t k hk
        have hdisj : ∀ t ∈ new, t ∉ seen := fun t ht => (hmemn t ht).1
        have hueq := unseenTCount_append g new seen hndn hdisj hlt
        rw [List.length_append]
        rw [List.length_cons] at hfuel
        omega

/-- Full specification of `find_stochastic_functions`: it terminates, the
visited set is exactly the set of edge-targets reachable from the roots, and
the discovered list enumerates, without duplicates, exactly the executable
stochastic functions among them. -/
theorem find_stochastic_spec (g : Graph) (roots : List Nat) :
    ∃ foundF seenF,
      find_stochastic_functions g roots = some (foundF, seenF) ∧
      foundF.Nodup ∧
      (∀ t, t ∈ foundF ↔ ((fnode g t).is_stochastic = true ∧
        (fnode g t).is_executable = true ∧ SuccReach g roots t)) ∧
      (∀ x, x ∈ seenF ↔ SuccReach g roots x) := by
  obtain ⟨foundF, seenF, pF, hrun, hndf, hiff, _hmono, hsound, hseenp, hrootsp,
      hclosed⟩ :=
    stochLoop_spec g roots (roots.length + (allTargets g).dedup.length)
      roots.reverse [] [] []
      (by intro x hx; exact absurd hx (List.not_mem_nil x))
      (by intro x hx; exact Or.inr (List.mem_reverse.mpr hx))
      (by intro x hx; exact Or.inl (List.mem_reverse.mp hx))
      (by intro x hx; exact absurd hx (List.not_mem_nil x))
      (by intro s hs; exact absurd hs (List.not_mem_nil s))
      List.nodup_nil
      (by intro t; simp)
      (by
        rw [List.length_reverse]
        have h1 : unseenTCount g [] ≤ (allTargets g).toFinset.card :=
          Finset.card_filter_le _ _
        rw [List.card_toFinset] at h1
        omega)
  have hseenSucc : ∀ x, x ∈ seenF ↔ SuccReach g roots x := by
    intro x
    constructor
    · exact hsound x
    · intro hr
      induction hr with
      | base r t k hr he => exact hclosed r (hrootsp r hr) t k he
      | step s t k _hs he ihs => exact hclosed s (hseenp s ihs) t k he
  refine ⟨foundF, seenF, hrun, hndf, ?_, hseenSucc⟩
  intro t
  rw [hiff t, hseenSucc t]

/-- The execution invariant is preserved by every run, whatever the
scheduler picks. -/
theorem engineRun_inv (g : Graph) (roots found R : List Nat) (deps0 : Nat → Nat)
    (hR : ∀ x, x ∈ R ↔ DepReach g (roots ++ found) x)
    (hRnd : R.Nodup)
    (hRcl : ∀ s ∈ R, (fnode g s).is_executable = true → ∀ t k,
      (some t, k) ∈ (fnode g s).next_functions →
      (fnode g t).is_executable = true → (fnode g t).is_stochastic = false →
      t ∈ R)
    (hdeps0 : ∀ x, (fnode g x).is_executable = true →
      (fnode g x).is_stochastic = false → deps0 x = execEdgeSum g R x)
    (hfound : ∀ t ∈ found, (fnode g t).is_stochastic = true ∧
      (fnode g t).is_executable = true)
    (hfoundSucc : ∀ t ∈ found, SuccReach g roots t)
    (hnoSucc : ∀ r ∈ roots, ¬ SuccReach g roots r)
    (st : EngineState) (picks : List Nat)
    (hinv : EngineInv g roots found R deps0 st) :
    EngineInv g roots found R deps0 (engineRun g st picks) := by
  induction picks generalizing st with
  | nil => exact hinv
  | cons p ps ih =>
    exact ih (engineStep g st p)
      (engineStep_inv g roots found R deps0 hR hRnd hRcl hdeps0
        hfound hfoundSucc hnoSucc st p hinv)

/-- In a state satisfying the invariant whose queues have drained, the fired
trace contains exactly the functions of `FiresSpec`, each exactly once. -/
theorem engineFinal (g : Graph) (roots found R : List Nat) (deps0 : Nat → Nat)
    (rank : Nat → Nat)
    (hR : ∀ x, x ∈ R ↔ DepReach g (roots ++ found) x)
    (hRnd : R.Nodup)
    (hdeps0 : ∀ x, (fnode g x).is_executable = true →
      (fnode g x).is_stochastic = false → deps0 x = execEdgeSum g R x)
    (hrank : ∀ s t k, s < g.length → (some t, k) ∈ (fnode g s).next_functions →
      rank t < rank s)
    (hfound : ∀ t ∈ found, (fnode g t).is_stochastic = true ∧
      (fnode g t).is_executable = true)
    (st : EngineState)
    (hinv : EngineInv g roots found R deps0 st)
    (hdone : st.pending = []) :
    ∀ f, st.fired.count f = 1 ↔ FiresSpec g roots found f := by
  obtain ⟨herr, hnd, hmem, hcnt1, hlaw⟩ := hinv
  rw [hdone, List.append_nil] at hnd hmem hcnt1
  simp only [hdone, List.append_nil] at hlaw
  have hM : ∀ s ∈ R, rank s ≤ (R.map rank).sum := fun s hs =>
    List.single_le_sum (fun x _ => Nat.zero_le x) _ (List.mem_map_of_mem rank hs)
  have hmain : ∀ n f, f ∈ R → f ∉ roots ++ found →
      (R.map rank).sum + 1 - rank f ≤ n →
      listEdgeSum g st.fired f = deps0 f := by
    intro n
    induction n with
    | zero =>
      intro f hfR hfnf hn
      exfalso
      have := hM f hfR
      omega
    | succ n ih =>
      intro f hfR hfnf hn
      obtain ⟨hex, hst'⟩ := depReach_flags g _ f ((hR f).mp hfR) hfnf
      rw [hdeps0 f hex hst']
      have hRHS : execEdgeSum g R f =
          (R.filter (fun s => (fnode g s).is_executable)).toFinset.sum
            (fun s => edgeCount g s f) :=
        (List.sum_toFinset _ (hRnd.filter _)).symm
      rw [listEdgeSum_toFinset g st.fired f hnd, hRHS]
      apply Finset.sum_subset
      · intro s hs
        rw [List.mem_toFinset] at hs
        obtain ⟨hsR, hsex⟩ := firesSpec_mem_R g roots found R s hR hfound (hmem s hs)
        rw [List.mem_toFinset, List.mem_filter]
        exact ⟨hsR, by simp [hsex]⟩
      · intro s hsbig hsnot
        by_contra hc
        have hcpos : 0 < edgeCount g s f := Nat.pos_of_ne_zero hc
        obtain ⟨k, hk⟩ := (edgeCountIn_pos _ f).mp hcpos
        rw [List.mem_toFinset, List.mem_filter] at hsbig
        obtain ⟨hsR, hsexb⟩ := hsbig
        have hsex : (fnode g s).is_executable = true := by simpa using hsexb
        rw [List.mem_toFinset] at hsnot
        apply hsnot
        by_cases hsf : s ∈ roots ++ found
        · have hcc : st.fired.count s = 1 := by
            apply hcnt1
            rcases List.mem_append.mp hsf with h' | h'
            · exact Or.inl ⟨h', hsex⟩
            · exact Or.inr h'
          have : 0 < st.fired.count s := by omega
          exact List.count_pos_iff.mp this
        · have hrk : rank f < rank s := hrank s f k (fnode_exec_lt g s hsex) hk
          have hMs := hM s hsR
          have heqs := ih s hsR hsf (by omega)
          obtain ⟨_, _, heq⟩ := hlaw s hsf hsR
          obtain ⟨_, hcount⟩ := heq heqs
          have : 0 < st.fired.count s := by omega
          exact List.count_pos_iff.mp this
  intro f
  constructor
  · intro hc
    have hf : f ∈ st.fired := List.count_pos_iff.mp (by omega)
    exact hmem f hf
  · intro hfs
    rcases hfs with ⟨hr, hex⟩ | hf | ⟨hnf, hd⟩
    · exact hcnt1 f (Or.inl ⟨hr, hex⟩)
    · exact hcnt1 f (Or.inr hf)
    · have hfR := (hR f).mpr hd
      have hsum := hmain ((R.map rank).sum + 1 - rank f) f hfR hnf (Nat.le_refl _)
      obtain ⟨_, _, heq⟩ := hlaw f hnf hfR
      exact (heq hsum).2

/-- Claim C1 (amended): consider an execute over distinct roots of an
acyclic graph (`rank` is a topological numbering) in which no root is
re-discoverable as an edge target from the roots (the proviso forced by the
counterexample).  Then for every scheduler interleaving the engine never
hits the missing-dependency error, every Function's `apply` is invoked at
most once — the dependency counter of each interior node reaches zero
exactly once — and in any completed run (all queues drained) `apply(F)` is
invoked exactly once if and only if F is an executable root, or F is a
discovered stochastic function (executable, stochastic and an edge-target
reachable from the roots), or F is an executable non-stochastic function
reached by the dependency traversal from that combined frontier. -/
theorem claim_C1_theorem (g : Graph) (roots : List Nat) (rank : Nat → Nat)
    (hndr : roots.Nodup)
    (hrank : ∀ s t k, s < g.length → (some t, k) ∈ (fnode g s).next_functions →
      rank t < rank s)
    (hfresh : ∀ r ∈ roots, ¬ SuccReach g roots r)
    (found seenS : List Nat)
    (hstoch : find_stochastic_functions g roots = some (found, seenS))
    (st0 : EngineState)
    (hinit : executeInit g roots = some st0)
    (picks : List Nat) :
    (engineRun g st0 picks).error = false ∧
    (∀ f, (engineRun g st0 picks).fired.count f ≤ 1) ∧
    (∀ t, t ∈ found ↔ ((fnode g t).is_stochastic = true ∧
      (fnode g t).is_executable = true ∧ SuccReach g roots t)) ∧
    ((engineRun g st0 picks).pending = [] →
      ∀ f, ((engineRun g st0 picks).fired.count f = 1 ↔
        FiresSpec g roots found f)) := by
  obtain ⟨fF, sF, heq, hndf, hiffF, _hseenF⟩ := find_stochastic_spec g roots
  rw [hstoch] at heq
  have hpair : found = fF ∧ seenS = sF := by simpa using heq
  obtain ⟨rfl, rfl⟩ : found = fF ∧ seenS = sF := hpair
  have hfound_flags : ∀ t ∈ found, (fnode g t).is_stochastic = true ∧
      (fnode g t).is_executable = true :=
    fun t ht => ⟨((hiffF t).mp ht).1, ((hiffF t).mp ht).2.1⟩
  have hfoundSucc : ∀ t ∈ found, SuccReach g roots t :=
    fun t ht => ((hiffF t).mp ht).2.2
  have hdisjrf : ∀ t ∈ found, t ∉ roots := by
    intro t ht hc
    exact hfresh t hc (hfoundSucc t ht)
  have hfrnd : (roots ++ found).Nodup := by
    rw [List.nodup_append]
    exact ⟨hndr, hndf, fun a ha hb => hdisjrf a hb ha⟩
  obtain ⟨depsF, seenF2, reach, hcdep, _hiff2, hndreach, hreach, hclosed,
      hsums, _hoth⟩ := compute_dependencies_spec g (roots ++ found) hfrnd
  have hst0 : st0 =
      { pending := roots.filter (fun r => (fnode g r).is_executable) ++ found,
        deps := depsF, fired := [], error := false } := by
    rw [executeInit, hstoch] at hinit
    simp only [Option.bind_eq_bind, Option.some_bind] at hinit
    rw [hcdep] at hinit
    simp only [Option.some_bind, Option.pure_def, Option.some.injEq] at hinit
    exact hinit.symm
  subst hst0
  have hreach' : ∀ x, x ∈ reach ↔ DepReach g (roots ++ found) x := hreach
  have hclosed' : ∀ s ∈ reach, (fnode g s).is_executable = true → ∀ t k,
      (some t, k) ∈ (fnode g s).next_functions →
      (fnode g t).is_executable = true → (fnode g t).is_stochastic = false →
      t ∈ reach := hclosed
  have hinv0 : EngineInv g roots found reach depsF
      { pending := roots.filter (fun r => (fnode g r).is_executable) ++ found,
        deps := depsF, fired := [], error := false } := by
    have hndfil : (roots.filter (fun r => (fnode g r).is_executable)).Nodup :=
      hndr.filter _
    have hfilsub : ∀ x ∈ roots.filter (fun r => (fnode g r).is_executable),
        x ∈ roots ∧ (fnode g x).is_executable = true := by
      intro x hx
      have := List.mem_filter.mp hx
      exact ⟨this.1, by simpa using this.2⟩
    refine ⟨rfl, ?_, ?_, ?_, ?_⟩
    · dsimp only
      rw [List.nil_append, List.nodup_append]
      refine ⟨hndfil, hndf, ?_⟩
      intro a ha hb
      exact hdisjrf a hb (hfilsub a ha).1
    · intro x hx
      dsimp only at hx
      rw [List.nil_append] at hx
      rcases List.mem_append.mp hx with h' | h'
      · exact Or.inl (hfilsub x h')
      · exact Or.inr (Or.inl h')
    · intro x hx
      dsimp only
      rw [List.nil_append, List.count_append]
      rcases hx with ⟨hr, hex⟩ | hf
      · have h1 : (roots.filter (fun r => (fnode g r).is_executable)).count x = 1 :=
          List.count_eq_one_of_mem hndfil
            (List.mem_filter.mpr ⟨hr, by simp [hex]⟩)
        have h2 : found.count x = 0 :=
          List.count_eq_zero_of_not_mem (fun hc => hdisjrf x hc hr)
        omega
      · have h1 : found.count x = 1 := List.count_eq_one_of_mem hndf hf
        have h2 : (roots.filter (fun r => (fnode g r).is_executable)).count x = 0 :=
          List.count_eq_zero_of_not_mem
            (fun hc => hdisjrf x hf (hfilsub x hc).1)
        omega
    · intro x hxnf hxR
      dsimp only
      have hz : listEdgeSum g [] x = 0 := rfl
      have hpos : 1 ≤ execEdgeSum g reach x :=
        depReach_interior_pos g (roots ++ found) reach x hreach' hxR hxnf
      obtain ⟨hex, hst'⟩ := depReach_flags g _ x ((hreach' x).mp hxR) hxnf
      have hd0 : depsF x = execEdgeSum g reach x := hsums x hex hst'
      refine ⟨by omega, ?_, ?_⟩
      · intro _
        refine ⟨by omega, List.not_mem_nil x, ?_⟩
        intro hc
        rcases List.mem_append.mp hc with h' | h'
        · exact hxnf (List.mem_append_left _ (hfilsub x h').1)
        · exact hxnf (List.mem_append_right _ h')
      · intro hcc
        rw [hz] at hcc
        omega
  have hinvF := engineRun_inv g roots found reach depsF hreach' hndreach
    hclosed' hsums hfound_flags hfoundSucc hfresh _ picks hinv0
  obtain ⟨herrF, hndF, hmemF, _hcntF, _hlawF⟩ := hinvF
  refine ⟨herrF, ?_, hiffF, ?_⟩
  · intro f
    have hle1 := List.nodup_iff_count_le_one.mp hndF f
    rw [List.count_append] at hle1
    omega
  · intro hdone
    exact engineFinal g roots found reach depsF rank hreach' hndreach hsums
      hrank hfound_flags _ (engineRun_inv g roots found reach depsF
        hreach' hndreach hclosed' hsums hfound_flags hfoundSucc hfresh
        _ picks hinv0) hdone

/-- Claim C1 (counterexample): apply is not always invoked at most once.  In
`rootRefireGraph` both nodes are executable roots and root 0 has an edge
into root 1, so root 1 is seeded as a root task and then enqueued a second
time when its dependency counter reaches zero: the completed run
(`pending` drained) fires function 1 twice. -/
theorem claim_C1_counterexample :
    (executeInit rootRefireGraph [0, 1]).map
        (fun st =>
          ((engineRun rootRefireGraph st [0, 0, 0]).fired.count 1,
            (engineRun rootRefireGraph st [0, 0, 0]).pending.isEmpty))
      = some (2, true) := by
  rfl

/-- Witness for amended claim C1 on the two-node chain with the single root
0: the completed run is error-free, fires nothing twice, and fires exactly
the functions of `FiresSpec`. -/
theorem claim_C1_witness :
    (engineRun rootRefireGraph chainInit [0, 0]).error = false ∧
    (∀ f, (engineRun rootRefireGraph chainInit [0, 0]).fired.count f ≤ 1) ∧
    (∀ t, t ∈ ([] : List Nat) ↔ ((fnode rootRefireGraph t).is_stochastic = true ∧
      (fnode rootRefireGraph t).is_executable = true ∧
      SuccReach rootRefireGraph [0] t)) ∧
    ((engineRun rootRefireGraph chainInit [0, 0]).pending = [] →
      ∀ f, ((engineRun rootRefireGraph chainInit [0, 0]).fired.count f = 1 ↔
        FiresSpec rootRefireGraph [0] [] f)) := by
  have hfreshW : ∀ r ∈ [0], ¬ SuccReach rootRefireGraph [0] r := by
    intro r hr hs
    have h0 : r = 0 := by simpa using hr
    subst h0
    obtain ⟨fF, sF, heq, _, _, hseen⟩ := find_stochastic_spec rootRefireGraph [0]
    have hcomp : find_stochastic_functions rootRefireGraph [0] = some ([], [1]) := rfl
    rw [hcomp] at heq
    have hp : ([] : List Nat) = fF ∧ ([1] : List Nat) = sF := by simpa using heq
    obtain ⟨_, h2⟩ := hp
    have h3 : (0 : Nat) ∈ sF := (hseen 0).mpr hs
    rw [← h2] at h3
    simp at h3
  have hrankW : ∀ s t k, s < rootRefireGraph.length →
      (some t, k) ∈ (fnode rootRefireGraph s).next_functions →
      (fun n => 2 - n) t < (fun n => 2 - n) s := by
    intro s t k hs he
    have hs2 : s < 2 := hs
    interval_cases s
    · have he' : (some t, k) ∈ [((some 1 : Option Nat), 0)] := he
      have hp : (some t : Option Nat) = some 1 ∧ k = 0 := by simpa using he'
      have ht : t = 1 := by simpa using hp.1
      subst ht
      decide
    · have he' : (some t, k) ∈ ([] : List (Option Nat × Nat)) := he
      simp at he'
  exact claim_C1_theorem rootRefireGraph [0] (fun n => 2 - n) (by decide) hrankW
    hfreshW [] [1] rfl chainInit rfl [0, 0]

/-- Claim C3: after `compute_dependencies` runs on a duplicate-free frontier
(the distinct roots plus the discovered stochastic functions), every
executable non-stochastic function `f` reachable from the frontier has
`dependencies[f]` equal to the total number of `next_functions` edges
pointing at `f` from executable functions reachable from the frontier
(enumerated without duplicates by `reach`), while non-executable targets,
stochastic targets and null edges contribute no count and such nodes receive
no dependency entry (their count stays 0). -/
theorem claim_C3_theorem (g : Graph) (frontier : List Nat)
    (hnd : frontier.Nodup) :
    ∃ depsF seenF reach,
      compute_dependencies g frontier = some (depsF, seenF) ∧
      (∀ x, x ∈ reach ↔ DepReach g frontier x) ∧
      reach.Nodup ∧
      (∀ f, (fnode g f).is_executable = true → (fnode g f).is_stochastic = false →
        DepReach g frontier f → depsF f = execEdgeSum g reach f) ∧
      (∀ f, ¬ ((fnode g f).is_executable = true ∧ (fnode g f).is_stochastic = false) →
        depsF f = 0) := by
  obtain ⟨depsF, seenF, reach, hrun, _hiff, hndr, hreach, _hcl, hsums, hoth⟩ :=
    compute_dependencies_spec g frontier hnd
  exact ⟨depsF, seenF, reach, hrun, hreach, hndr,
    fun f hex hst _hr => hsums f hex hst, hoth⟩

/-- Witness for claim C3 on a concrete two-node graph with a duplicate-free
frontier. -/
theorem claim_C3_witness :
    ∃ depsF seenF reach,
      compute_dependencies rootRefireGraph [0, 1] = some (depsF, seenF) ∧
      (∀ x, x ∈ reach ↔ DepReach rootRefireGraph [0, 1] x) ∧
      reach.Nodup ∧
      (∀ f, (fnode rootRefireGraph f).is_executable = true →
        (fnode rootRefireGraph f).is_stochastic = false →
        DepReach rootRefireGraph [0, 1] f →
        depsF f = execEdgeSum rootRefireGraph reach f) ∧
      (∀ f, ¬ ((fnode rootRefireGraph f).is_executable = true ∧
          (fnode rootRefireGraph f).is_stochastic = false) →
        depsF f = 0) :=
  claim_C3_theorem rootRefireGraph [0, 1] (by decide)

/-- Claim C4 (counterexample): the ReadyQueue is not LIFO.  Pushing task 1
then task 2 with no interleaved pops, `pop_back` returns task 1 — the least
recently pushed — not the most recent task 2. -/
theorem claim_C4_counterexample :
    (((ReadyQueue.empty : ReadyQueue Nat).push_front 1).push_front 2).pop_back =
      some (1, { queue := [2], outstanding_tasks := 2 }) ∧ (1 : Nat) ≠ 2 := by
  decide

/-- Claim C4 (amended): the ReadyQueue delivers tasks in FIFO order within a
single queue: for any sequence of `push_front` calls with no interleaved
pops, `pop_back` returns the least recently pushed task first. -/
theorem claim_C4_theorem (xs : List Nat) :
    (((ReadyQueue.empty : ReadyQueue Nat).pushAll xs).pop_back).map Prod.fst = xs.head? := by
  have hq : ((ReadyQueue.empty : ReadyQueue Nat).pushAll xs).queue = xs.reverse := by
    simpa [ReadyQueue.empty] using ReadyQueue.pushAll_queue ReadyQueue.empty xs
  cases xs with
  | nil =>
    simp [ReadyQueue.pop_back, hq]
  | cons x t =>
    have hlast : ((ReadyQueue.empty : ReadyQueue Nat).pushAll (x :: t)).queue.getLast?
        = some x := by
      rw [hq, List.reverse_cons, List.getLast?_concat]
    simp [ReadyQueue.pop_back, hlast]

/-- On a version match that passes the leaf check, `unpack` succeeds with the
cloned-data Variable. -/
theorem SavedVariable.unpack_ok (sv : SavedVariable) (d : Tensor) (freshId : Nat)
    (hd : sv.data = some d) (hv : sv.current_version = sv.expected_version)
    (hnl : ¬ (sv.requires_grad = true ∧ sv.grad_fn = none ∧ sv.weak_grad_fn = none ∧
      sv.grad_accumulator = none)) :
    sv.unpack freshId = .ok (some
      { data := { id := freshId, val := d.val, isSparse := d.isSparse },
        requires_grad := sv.requires_grad,
        is_volatile := sv.is_volatile,
        grad_fn := if sv.grad_fn = none ∧ sv.weak_grad_fn ≠ none then sv.weak_grad_fn
          else sv.grad_fn,
        version_cell := sv.version_cell,
        grad_accumulator := sv.grad_accumulator }) := by
  have h1 : ¬ (sv.expected_version ≠ sv.current_version) := by simp [hv]
  simp only [SavedVariable.unpack, hd]
  rw [if_neg h1, if_neg hnl]

/-- Claim C2: with saved data present, `SavedVariable::unpack` raises the
in-place-modification error iff the current version differs from the captured
`expected_version`; with equal versions it raises the missing-accumulator
logic error when the saved variable is a leaf (no strong grad_fn) that
requires grad whose weak grad_fn and grad accumulator have both expired, and
otherwise returns a fresh Variable whose data is a shallow clone of the
saved data (fresh object identity, equal payload), whose version counter is
joined with the saved counter, and whose grad_fn is restored from the strong
reference or, failing that, from the live weak reference. -/
theorem claim_C2_theorem (sv : SavedVariable) (d : Tensor) (freshId : Nat)
    (hd : sv.data = some d) :
    (sv.unpack freshId = .error .inplaceModified ↔
        sv.current_version ≠ sv.expected_version) ∧
    (sv.current_version = sv.expected_version →
      ((sv.requires_grad = true ∧ sv.grad_fn = none ∧ sv.weak_grad_fn = none ∧
          sv.grad_accumulator = none) →
        sv.unpack freshId = .error .noGradAccumulator) ∧
      (¬ (sv.requires_grad = true ∧ sv.grad_fn = none ∧ sv.weak_grad_fn = none ∧
          sv.grad_accumulator = none) →
        ∃ v, sv.unpack freshId = .ok (some v) ∧
          v.data.val = d.val ∧ v.data.isSparse = d.isSparse ∧ v.data.id = freshId ∧
          v.version_cell = sv.version_cell ∧
          v.requires_grad = sv.requires_grad ∧ v.is_volatile = sv.is_volatile ∧
          v.grad_accumulator = sv.grad_accumulator ∧
          (sv.grad_fn ≠ none → v.grad_fn = sv.grad_fn) ∧
          (sv.grad_fn = none → sv.weak_grad_fn ≠ none → v.grad_fn = sv.weak_grad_fn) ∧
          (sv.grad_fn = none → sv.weak_grad_fn = none → v.grad_fn = none))) := by
  constructor
  · constructor
    · intro h hv
      have h1 : ¬ (sv.expected_version ≠ sv.current_version) := by simp [hv]
      simp only [SavedVariable.unpack, hd] at h
      rw [if_neg h1] at h
      split at h <;> simp_all
    · intro hv
      have h1 : sv.expected_version ≠ sv.current_version := Ne.symm hv
      simp only [SavedVariable.unpack, hd]
      rw [if_pos h1]
  · intro hv
    constructor
    · intro hleaf
      have h1 : ¬ (sv.expected_version ≠ sv.current_version) := by simp [hv]
      simp only [SavedVariable.unpack, hd]
      rw [if_neg h1, if_pos hleaf]
    · intro hnl
      refine ⟨_, SavedVariable.unpack_ok sv d freshId hd hv hnl, rfl, rfl, rfl, rfl,
        rfl, rfl, rfl, ?_, ?_, ?_⟩
      · intro hgf
        simp [hgf]
      · intro hgf hw
        simp [hgf, hw]
      · intro hgf hw
        simp [hgf, hw]

/-- Witness for claim C2 at the concrete `svSample`. -/
theorem claim_C2_witness :
    (svSample.unpack 77 = .error .inplaceModified ↔
        svSample.current_version ≠ svSample.expected_version) ∧
    (svSample.current_version = svSample.expected_version →
      ((svSample.requires_grad = true ∧ svSample.grad_fn = none ∧
          svSample.weak_grad_fn = none ∧ svSample.grad_accumulator = none) →
        svSample.unpack 77 = .error .noGradAccumulator) ∧
      (¬ (svSample.requires_grad = true ∧ svSample.grad_fn = none ∧
          svSample.weak_grad_fn = none ∧ svSample.grad_accumulator = none) →
        ∃ v, svSample.unpack 77 = .ok (some v) ∧
          v.data.val = 42 ∧ v.data.isSparse = false ∧ v.data.id = 77 ∧
          v.version_cell = svSample.version_cell ∧
          v.requires_grad = svSample.requires_grad ∧
          v.is_volatile = svSample.is_volatile ∧
          v.grad_accumulator = svSample.grad_accumulator ∧
          (svSample.grad_fn ≠ none → v.grad_fn = svSample.grad_fn) ∧
          (svSample.grad_fn = none → svSample.weak_grad_fn ≠ none →
            v.grad_fn = svSample.weak_grad_fn) ∧
          (svSample.grad_fn = none → svSample.weak_grad_fn = none →
            v.grad_fn = none))) :=
  claim_C2_theorem svSample { id := 5, val := 42, isSparse := false } 77 rfl

/-- Claim C9: when the SavedVariable holds no saved data, unpack returns a
null Variable pointer without raising and without performing the version
check. -/
theorem claim_C9_theorem (sv : SavedVariable) (freshId : Nat)
    (hd : sv.data = none) : sv.unpack freshId = .ok none := by
  rw [SavedVariable.unpack, hd]

/-- Witness for claim C9 at a concrete SavedVariable whose versions disagree
(the version check is skipped) and whose leaf data is missing. -/
theorem claim_C9_witness :
    SavedVariable.unpack
      { data := none, expected_version := 0, current_version := 7,
        version_cell := 3, requires_grad := true, is_volatile := false,
        grad_fn := none, weak_grad_fn := none, grad_accumulator := none } 11
      = .ok none :=
  claim_C9_theorem _ 11 rfl

/-- Claim C10: both Variable constructors throw when the supplied tensor
pointer is null, and on success the Variable holds exactly the supplied
tensor — so every live Variable holds a non-null data tensor. -/
theorem claim_C10_theorem :
    (∀ r v, Variable.mkLeaf none r v = Except.error CtorError.nullData) ∧
    (∀ gfId gf, (Variable.mkFromGradFn none gfId gf).1 =
        Except.error CtorError.nullData) ∧
    (∀ d r v var, Variable.mkLeaf (some d) r v = Except.ok var → var.data = d) ∧
    (∀ d gfId gf var, (Variable.mkFromGradFn (some d) gfId gf).1 = Except.ok var →
        var.data = d) := by
  refine ⟨fun r v => rfl, fun gfId gf => rfl, ?_, ?_⟩
  · intro d r v var h
    simp only [Variable.mkLeaf, Except.ok.injEq] at h
    rw [← h]
  · intro d gfId gf var h
    simp only [Variable.mkFromGradFn, Except.ok.injEq] at h
    rw [← h]

/-- Witness for claim C10: a concrete successful construction and a concrete
null rejection. -/
theorem claim_C10_witness :
    Variable.mkLeaf none true false = Except.error CtorError.nullData ∧
    ({ data := { id := 2, val := 7, isSparse := false }, grad_fn := none,
       requires_grad := true, is_volatile := false, output_nr := 0 } : Variable).data
      = { id := 2, val := 7, isSparse := false } :=
  ⟨claim_C10_theorem.1 true false,
    claim_C10_theorem.2.2.1 { id := 2, val := 7, isSparse := false } true false _ rfl⟩

/-- Claim C5: a Variable built from a non-null grad_fn by
`Variable::Variable(data, grad_fn)` has `requires_grad = grad_fn.is_executable`,
`is_volatile = false` — which equals the inherited volatility computed by
`Function::flags` whenever that volatility is false, the only situation in
which an op is attached as a grad_fn — `output_nr` equal to the op's
pre-increment `num_inputs`, and the construction increments the op's
`num_inputs` by exactly one. -/
theorem claim_C5_theorem (d : Tensor) (gfId : Nat) (gf : FunctionObj)
    (inputs : List VarFlags) (hvol : (Function.flags inputs).is_volatile = false) :
    ∃ var, (Variable.mkFromGradFn (some d) gfId gf).1 = Except.ok var ∧
      var.grad_fn = some gfId ∧
      var.requires_grad = gf.is_executable ∧
      var.is_volatile = (Function.flags inputs).is_volatile ∧
      var.output_nr = gf.num_inputs ∧
      (Variable.mkFromGradFn (some d) gfId gf).2.num_inputs = gf.num_inputs + 1 := by
  exact ⟨_, rfl, rfl, rfl, by simp [hvol], rfl, rfl⟩

/-- Witness for claim C5 at a concrete tensor, op and input list. -/
theorem claim_C5_witness :
    ∃ var, (Variable.mkFromGradFn (some { id := 0, val := 3, isSparse := false }) 6
        { num_inputs := 2, is_executable := true }).1 = Except.ok var ∧
      var.grad_fn = some 6 ∧
      var.requires_grad = ({ num_inputs := 2, is_executable := true } : FunctionObj).is_executable ∧
      var.is_volatile = (Function.flags [{ requires_grad := true, is_volatile := false }]).is_volatile ∧
      var.output_nr = 2 ∧
      (Variable.mkFromGradFn (some { id := 0, val := 3, isSparse := false }) 6
        { num_inputs := 2, is_executable := true }).2.num_inputs = 2 + 1 :=
  claim_C5_theorem { id := 0, val := 3, isSparse := false } 6
    { num_inputs := 2, is_executable := true }
    [{ requires_grad := true, is_volatile := false }] (by decide)

/-- Claim C8: `get_grad_accumulator` returns null whenever `grad_fn` is set,
regardless of `requires_grad` (the grad_fn short-circuit precedes the
requires_grad check); returns null for a leaf that does not require grad;
and for a leaf that requires grad returns some accumulator and returns that
same accumulator again on the next call. -/
theorem claim_C8_theorem :
    (∀ i rg acc fresh, (Variable.get_grad_accumulator
        { grad_fn := some i, requires_grad := rg, grad_accumulator := acc } fresh).1
        = none) ∧
    (∀ acc fresh, (Variable.get_grad_accumulator
        { grad_fn := none, requires_grad := false, grad_accumulator := acc } fresh).1
        = none) ∧
    (∀ acc fresh fresh2,
      (Variable.get_grad_accumulator
        { grad_fn := none, requires_grad := true, grad_accumulator := acc } fresh).1
        ≠ none ∧
      (Variable.get_grad_accumulator
        ((Variable.get_grad_accumulator
          { grad_fn := none, requires_grad := true, grad_accumulator := acc } fresh).2)
        fresh2).1
      = (Variable.get_grad_accumulator
          { grad_fn := none, requires_grad := true, grad_accumulator := acc } fresh).1) := by
  refine ⟨fun i rg acc fresh => rfl, fun acc fresh => rfl, fun acc fresh fresh2 => ?_⟩
  cases acc with
  | none => exact ⟨by simp [Variable.get_grad_accumulator], by simp [Variable.get_grad_accumulator]⟩
  | some a => exact ⟨by simp [Variable.get_grad_accumulator], by simp [Variable.get_grad_accumulator]⟩

/-- Claim C6: when `AccumulateGrad::apply` runs on a live leaf that has no
grad yet (all sanity checks passing, no hooks), it sets the leaf's grad to
the output of a fresh Clone node applied to the incoming gradient: the new
grad is tensor-equal to the incoming gradient but never the same object. -/
theorem claim_C6_theorem (selfId freshAcc fresh cloneNode addNode : Nat)
    (v : LeafVarState) (vg : Option GVar) (g0 : GVar)
    (hgf : v.grad_fn = none) (hver : v.version_value = 0)
    (hacc : v.grad_accumulator = some selfId) (hrg : v.requires_grad = true)
    (hhooks : v.hooks = []) (hgrad : v.grad = none)
    (hfresh : g0.data.id ≠ fresh) :
    ∃ v' ng, AccumulateGrad.apply selfId (some v) vg [g0] freshAcc fresh cloneNode addNode
        = Except.ok (some v', some ng) ∧
      v'.grad = some ng ∧ ng.data.val = g0.data.val ∧ ng.data.id ≠ g0.data.id := by
  refine ⟨{ v with grad := some (Clone.apply g0 cloneNode fresh) },
    Clone.apply g0 cloneNode fresh, ?_, rfl, rfl, fun h => hfresh h.symm⟩
  simp only [AccumulateGrad.apply]
  rw [if_neg (by simp)]
  simp only [List.head?]
  rw [if_neg (by simp [hgf])]
  rw [if_neg (by simp [hver])]
  rw [if_neg (by simp [Variable.get_grad_accumulator, hgf, hrg, hacc])]
  simp only [hhooks, List.foldl_nil, hgrad]

/-- Witness for claim C6 at a concrete leaf and gradient. -/
theorem claim_C6_witness :
    ∃ v' ng, AccumulateGrad.apply 4 (some
        { grad_fn := none, requires_grad := true, version_value := 0,
          grad := none, grad_accumulator := some 4, hooks := [] })
        none [{ data := { id := 10, val := 5, isSparse := false },
                is_volatile := false, grad_fn := none }] 9 20 21 22
      = Except.ok (some v', some ng) ∧
      v'.grad = some ng ∧ ng.data.val = 5 ∧ ng.data.id ≠ 10 :=
  claim_C6_theorem 4 9 20 21 22 _ none _ rfl rfl rfl rfl rfl rfl (by decide)

/-- Claim C7 (counterexample): with `keep_graph = false` and a mismatching
output count, `releaseVariables` has already run by the time the fatal
output-count check fires — the verification does not precede
`releaseVariables`. -/
theorem claim_C7_counterexample :
    (evaluateFunctionTrace false 1 2).2 = some EvalError.invalidOutputCount ∧
    (evaluateFunctionTrace false 1 2).1.indexOf EvalEvent.releaseVariables <
      (evaluateFunctionTrace false 1 2).1.indexOf EvalEvent.outputCountCheck := by
  decide

/-- Claim C7 (amended): after `fn.apply` and the post-hooks the engine checks
that the number of outputs equals `fn.next_functions.size()` and raises the
fatal invalid-output-count error exactly on mismatch; but when `keep_graph`
is false, `fn.releaseVariables()` runs before that verification (and it does
not run at all when `keep_graph` is true); outputs are distributed only when
the check passes. -/
theorem claim_C7_theorem (keep : Bool) (n m : Nat) :
    ((evaluateFunctionTrace keep n m).2 = some EvalError.invalidOutputCount ↔ n ≠ m) ∧
    EvalEvent.outputCountCheck ∈ (evaluateFunctionTrace keep n m).1 ∧
    ((evaluateFunctionTrace false n m).1.indexOf EvalEvent.releaseVariables <
      (evaluateFunctionTrace false n m).1.indexOf EvalEvent.outputCountCheck) ∧
    EvalEvent.releaseVariables ∉ (evaluateFunctionTrace true n m).1 ∧
    (EvalEvent.distributeOutputs ∈ (evaluateFunctionTrace keep n m).1 ↔ n = m) := by
  by_cases h : n = m <;> cases keep <;>
    simp [evaluateFunctionTrace, h, List.indexOf_cons, List.indexOf] <;> decide

end Autograd
